import Mathlib

/-!
Verification development for the bstseal block compressor.

Shallow embedding of the Rust sources of `bstseal-core`
(`utils.rs`, `raw.rs`, `huff.rs`, `block_coder.rs`, `encode.rs`,
`integrity.rs`) over `List Nat` byte sequences (each byte < 256) and
`Nat` machine integers with explicit `% 2^w` where the Rust code relies
on wrapping/truncating behaviour.  Fallible functions return
`Except String` mirroring `anyhow::Result`.  All recursion is
structural (bounded fuel where the source uses `while`/`loop`), so the
definitions evaluate by kernel reduction on concrete inputs.
-/

set_option maxRecDepth 20000

namespace BstSeal

/-! ### utils.rs : varint codec -/

/-- Model of `write_varint_u64` loop body (`utils.rs`).  The loop runs at most
10 times for a `u64` (7 bits per output byte), so fuel 10 is exact. -/
def writeVarintGo : Nat → Nat → List Nat
| 0, _ => []
| fuel + 1, value =>
  let byte := value &&& 0x7F
  let value' := value >>> 7
  if value' = 0 then [byte]
  else (byte ||| 0x80) :: writeVarintGo fuel value'

/-- Model of `utils::write_varint_u64`: LEB128 encoding of a `u64` (`value < 2^64`). -/
def write_varint_u64 (value : Nat) : List Nat :=
  writeVarintGo 10 (value % 2 ^ 64)

/-- Model of `read_varint_u64` loop body (`utils.rs`): iterate over the input
bytes with index `i`; bail out with `None` once `i >= 10`. -/
def readVarintGo : List Nat → Nat → Nat → Nat → Option (Nat × Nat)
| [], _, _, _ => none
| b :: rest, i, shift, value =>
  if 10 ≤ i then none
  else
    let value' := (value ||| ((b &&& 0x7F) <<< shift)) % 2 ^ 64
    if b &&& 0x80 = 0 then some (value', i + 1)
    else readVarintGo rest (i + 1) (shift + 7) value'

/-- Model of `utils::read_varint_u64`: returns `(value, bytes_consumed)` or `none`. -/
def read_varint_u64 (r : List Nat) : Option (Nat × Nat) :=
  readVarintGo r 0 0 0

/-! ### raw.rs : identity block codec -/

/-- Model of `raw::encode`: returns the input data as a fresh vector. -/
def raw_encode (input : List Nat) : Except String (List Nat) := .ok input

/-- Model of `raw::decode`: returns the data as is. -/
def raw_decode (input : List Nat) : Except String (List Nat) := .ok input

/-! ### integrity.rs : 32-byte digest footer

The Rust code calls the external `blake3` crate; the embedding is
parametric in the hash function `H`, assuming only `(H x).length = 32`
(`blake3::OUT_LEN`), which is all the integrity layer relies on. -/

/-- Model of `integrity::HASH_SIZE` -/
def HASH_SIZE : Nat := 32

/-- Model of `integrity::IntegrityError` -/
inductive IntegrityError where
| TooSmall : IntegrityError
| Mismatch (expected actual : List Nat) : IntegrityError
deriving DecidableEq, Repr

/-- Model of `integrity::add_footer`: payload followed by its digest. -/
def add_footer (H : List Nat → List Nat) (data : List Nat) : List Nat :=
  data ++ H data

/-- Model of `integrity::verify_footer`: split off the trailing 32 bytes,
recompute the digest of the rest and compare. -/
def verify_footer (H : List Nat → List Nat) (data : List Nat) :
    Except IntegrityError (List Nat) :=
  if data.length < HASH_SIZE then .error .TooSmall
  else
    let payload := data.take (data.length - HASH_SIZE)
    let footer := data.drop (data.length - HASH_SIZE)
    let expected := H payload
    if expected = footer then .ok payload
    else .error (.Mismatch expected footer)

/-! ### huff.rs : canonical Huffman codec -/

/-- Model of `huff::MAX_CODE_LEN` -/
def MAX_CODE_LEN : Nat := 15

/-- Model of `huff::FAST_DECODE_BITS` -/
def FAST_DECODE_BITS : Nat := 16

/-- Model of `huff::TABLE_SIZE` -/
def TABLE_SIZE : Nat := 2 ^ FAST_DECODE_BITS

/-- Model of `huff::HuffCode`: `code: u16`, `len: u8`. -/
structure HuffCode where
  code : Nat
  len : Nat
deriving DecidableEq, Repr

instance : Inhabited HuffCode := ⟨⟨0, 0⟩⟩

/-- Model of `huff::FastDecodeEntry`: `symbol: u8`, `len: u8`. -/
structure FastDecodeEntry where
  symbol : Nat
  len : Nat
deriving DecidableEq, Repr

instance : Inhabited FastDecodeEntry := ⟨⟨0, 0⟩⟩

/-- A fixed array modelled as a wrapped total function on indices (the
wrapper makes a fully applied construction a first-class shared value). -/
structure Arr (α : Type) where
  get : Nat → α

/-- Model of `huff::CanonicalCode`: the `[HuffCode; 256]` array and the fast
decode table, both modelled as `Arr`. -/
structure CanonicalCode where
  codes : Arr HuffCode
  fast_decode_table : Arr FastDecodeEntry

/-- Pointwise update of a function-modelled array. -/
def upd {α : Type} (a : Arr α) (i : Nat) (v : α) : Arr α :=
  ⟨fun j => if j = i then v else a.get j⟩

/-- Model of `bl_count` construction in `from_lengths`: count symbols per code
length (`if len > 0 { bl_count[len] += 1 }`). -/
def blCount (lengths : List Nat) : Arr Nat :=
  lengths.foldl (fun bl len => if 0 < len then upd bl len (bl.get len + 1) else bl)
    ⟨fun _ => 0⟩

/-- One iteration of the `next_code` loop of `from_lengths`:
`code = (code + bl_count[bits-1]) << 1; next_code[bits] = code` with
`code: u16` (wrapping shift); the running `code` is `next_code[bits-1]`
since the previous iteration stored it there (and `next_code[0]` stays
0, matching the initial `code = 0`). -/
def nextStep (bl : Arr Nat) (st : Arr Nat) (bits : Nat) : Arr Nat :=
  let code := ((st.get (bits - 1) + bl.get (bits - 1)) * 2) % 2 ^ 16
  upd st bits code

/-- The `next_code` loop of `from_lengths`, run for
`bits in 1..=k`. -/
def nextCodesUpTo (bl : Arr Nat) (k : Nat) : Arr Nat :=
  ((List.range k).map (· + 1)).foldl (nextStep bl) ⟨fun _ => 0⟩

/-- The `next_code` array of `from_lengths`
(`for bits in 1..=MAX_CODE_LEN`). -/
def nextCodes (bl : Arr Nat) : Arr Nat :=
  nextCodesUpTo bl MAX_CODE_LEN

/-- One iteration of the code-assignment loop of `from_lengths`: symbol
`i` with `lengths[i] > 0` receives `next_code[len]`, which is then
incremented (`u16` increment). -/
def assignStep (lengths : List Nat) (st : Arr HuffCode × Arr Nat) (i : Nat) :
    Arr HuffCode × Arr Nat :=
  let len := lengths.getD i 0
  if 0 < len then
    (upd st.1 i ⟨st.2.get len, len⟩, upd st.2 len ((st.2.get len + 1) % 2 ^ 16))
  else st

/-- The state entering the code-assignment loop. -/
def assignInit (lengths : List Nat) : Arr HuffCode × Arr Nat :=
  (⟨fun _ => default⟩, nextCodes (blCount lengths))

/-- The code-assignment loop of `from_lengths`, run over symbols
`0..k`. -/
def assignUpTo (lengths : List Nat) (k : Nat) : Arr HuffCode × Arr Nat :=
  (List.range k).foldl (assignStep lengths) (assignInit lengths)

/-- The code-assignment loop of `from_lengths` over symbols `0..256`. -/
def assignCodes (lengths : List Nat) : Arr HuffCode × Arr Nat :=
  assignUpTo lengths 256

/-- The codes array produced by `CanonicalCode::from_lengths`. -/
def fromLengthsCodes (lengths : List Nat) : Arr HuffCode :=
  (assignCodes lengths).1

/-- One iteration of `build_fast_decode_table`: insert the code of one
symbol left-aligned, filling `2^(16-len)` entries, skipping indices
`>= TABLE_SIZE`. -/
def fillSymbol (t : Arr FastDecodeEntry) (symbol : Nat) (hc : HuffCode) :
    Arr FastDecodeEntry :=
  if 0 < hc.len ∧ hc.len ≤ FAST_DECODE_BITS then
    let numEntries := 2 ^ (FAST_DECODE_BITS - hc.len)
    let startCode := hc.code * 2 ^ (FAST_DECODE_BITS - hc.len)
    ⟨fun j =>
      if startCode ≤ j ∧ j < startCode + numEntries ∧ j < TABLE_SIZE then
        ⟨symbol, hc.len⟩
      else t.get j⟩
  else t

/-- Model of `CanonicalCode::build_fast_decode_table`: iterate over the 256
symbols in order; a later symbol overwrites overlapping entries. -/
def build_fast_decode_table (codes : Arr HuffCode) : Arr FastDecodeEntry :=
  (List.range 256).foldl (fun t symbol => fillSymbol t symbol (codes.get symbol))
    ⟨fun _ => default⟩

/-- Model of `CanonicalCode::from_lengths`: reject lengths above `MAX_CODE_LEN`,
otherwise assign canonical codes and build the fast table. -/
def from_lengths (lengths : List Nat) : Except String CanonicalCode :=
  if lengths.any (fun len => MAX_CODE_LEN < len) then
    .error "Code length exceeds MAX_CODE_LEN"
  else
    .ok ⟨fromLengthsCodes lengths, build_fast_decode_table (fromLengthsCodes lengths)⟩

/-! #### `CanonicalCode::new`: Huffman tree construction

`new` pushes `Reverse((freq, vec![symbol]))` entries into a
`BinaryHeap`, converts it to a `Vec` (the raw heap array), and then
repeatedly stable-sorts that vector by descending frequency and pops
and merges the two smallest entries.  Everything is deterministic:
`BinaryHeap::push` is append-then-sift-up with the derived
lexicographic order on `(u64, Vec<u8>)` (inverted by `Reverse`), and
Rust `sort_by_key` is a stable sort, whose output is fully determined
by stability. -/

/-- Lexicographic `Ord` on `Vec<u8>`. -/
def listLt : List Nat → List Nat → Bool
| [], [] => false
| [], _ :: _ => true
| _ :: _, [] => false
| a :: as_, b :: bs => if a < b then true else if a = b then listLt as_ bs else false

/-- Derived lexicographic `Ord` on `(u64, Vec<u8>)`. -/
def entryLt (x y : Nat × List Nat) : Bool :=
  if x.1 < y.1 then true else if x.1 = y.1 then listLt x.2 y.2 else false

/-- Model of `BinaryHeap` sift-up after appending at position `pos`: swap with
the parent while the new element is strictly greater in the heap order,
i.e. strictly smaller in `(freq, symbols)` order under `Reverse`.
Fuel `pos` suffices since the position strictly decreases. -/
def siftUp : Nat → List (Nat × List Nat) → Nat → List (Nat × List Nat)
| 0, arr, _ => arr
| fuel + 1, arr, pos =>
  if pos = 0 then arr
  else
    let parent := (pos - 1) / 2
    let e := arr.getD pos (0, [])
    let p := arr.getD parent (0, [])
    if entryLt e p then siftUp fuel ((arr.set parent e).set pos p) parent
    else arr

/-- Model of `BinaryHeap::push`: append, then sift up. -/
def heapPush (h : List (Nat × List Nat)) (x : Nat × List Nat) :
    List (Nat × List Nat) :=
  let arr := h ++ [x]
  siftUp arr.length arr (arr.length - 1)

/-- Stable merge of two descending-by-frequency runs (ties taken from
the left run, which realises stability). -/
def mergeDesc : Nat → List (Nat × List Nat) → List (Nat × List Nat) →
    List (Nat × List Nat)
| 0, l, r => l ++ r
| _ + 1, [], r => r
| _ + 1, l, [] => l
| fuel + 1, a :: as_, b :: bs =>
  if b.1 ≤ a.1 then a :: mergeDesc fuel as_ (b :: bs)
  else b :: mergeDesc fuel (a :: as_) bs

/-- Stable sort by descending frequency: the model of
`combined.sort_by_key(|k| Reverse(k.0))` (Rust `sort_by_key` is stable,
and a stable sort's output is unique). -/
def msortDesc : Nat → List (Nat × List Nat) → List (Nat × List Nat)
| 0, l => l
| fuel + 1, l =>
  if l.length ≤ 1 then l
  else
    let n := l.length / 2
    mergeDesc (l.length + 1) (msortDesc fuel (l.take n)) (msortDesc fuel (l.drop n))

/-- Model of `sort_by_key(|k| Reverse(k.0))`. -/
def sortByFreqDesc (l : List (Nat × List Nat)) : List (Nat × List Nat) :=
  msortDesc l.length l

/-- Model of `code_lengths[s] += 1` for every symbol in the merged group. -/
def bumpAll (lengths : List Nat) (syms : List Nat) : List Nat :=
  syms.foldl (fun l s => l.set s (l.getD s 0 + 1)) lengths

/-- The `while combined.len() > 1` merge loop of `CanonicalCode::new`:
stable sort descending by frequency, pop the two smallest, bump the
code length of each symbol of both groups, push the merged group.
One merge per iteration, so fuel = initial list length suffices. -/
def mergeLoop : Nat → List Nat → List (Nat × List Nat) → List Nat
| 0, lengths, _ => lengths
| fuel + 1, lengths, combined =>
  if combined.length ≤ 1 then lengths
  else
    let sorted := sortByFreqDesc combined
    let p1 := sorted.getLast?.getD (0, [])
    let rest := sorted.dropLast
    let p2 := rest.getLast?.getD (0, [])
    let rest2 := rest.dropLast
    let lengths1 := bumpAll lengths p1.2
    let lengths2 := bumpAll lengths1 p2.2
    mergeLoop fuel lengths2 (rest2 ++ [(p1.1 + p2.1, p1.2 ++ p2.2)])

/-- The `code_lengths` computed by `CanonicalCode::new` (frequency
analysis, heap merge, and the final clamp of lengths above 15).
`freqs` is the `[u64; 256]` array as a list. -/
def huffLengths (freqs : List Nat) : List Nat :=
  let active := freqs.enum.filter (fun p => 0 < p.2)
  let base : List Nat := List.replicate 256 0
  let lengths :=
    if active.length = 0 then base
    else if active.length = 1 then base.set (active.headD (0, 0)).1 1
    else
      let heap := active.foldl (fun h p => heapPush h (p.2, [p.1])) []
      mergeLoop heap.length base heap
  lengths.map (fun len => if MAX_CODE_LEN < len then MAX_CODE_LEN else len)

/-- Model of `CanonicalCode::new`. -/
def CanonicalCode_new (freqs : List Nat) : Except String CanonicalCode :=
  from_lengths (huffLengths freqs)

/-- Model of `CanonicalCode::write_lengths`: count byte (`non_zero.len() as u8`,
which wraps modulo 256) followed by `(symbol, length)` pairs in
ascending symbol order. -/
def write_lengths (codes : Arr HuffCode) : List Nat :=
  let nonZero := (List.range 256).filter (fun s => 0 < (codes.get s).len)
  (nonZero.length % 256) ::
    nonZero.foldl (fun out s => out ++ [s % 256, (codes.get s).len]) []

/-! #### Bit-level I/O (`huff.rs`) -/

/-- Model of `BitWriter` state: flushed bytes, current partial byte, bit position
(0-7, MSB first). -/
structure BitWriter where
  buffer : List Nat
  current : Nat
  bitPos : Nat
deriving Repr

/-- Model of `BitWriter::write` loop: emit `len` bits of `bits` MSB-first.  Each
round writes at least one bit, so fuel = `len` suffices. -/
def bwWriteGo : Nat → BitWriter → Nat → Nat → BitWriter
| 0, w, _, _ => w
| fuel + 1, w, bits, len =>
  if len = 0 then w
  else
    let bitsToWrite := min (8 - w.bitPos) len
    let mask := 2 ^ bitsToWrite - 1
    let chunk := (bits >>> (len - bitsToWrite)) &&& mask
    let current := w.current ||| ((chunk % 256) <<< (8 - w.bitPos - bitsToWrite))
    let bitPos := w.bitPos + bitsToWrite
    let w' : BitWriter :=
      if bitPos = 8 then ⟨w.buffer ++ [current], 0, 0⟩
      else ⟨w.buffer, current, bitPos⟩
    bwWriteGo fuel w' bits (len - bitsToWrite)

/-- Model of `BitWriter::write`. -/
def bwWrite (w : BitWriter) (bits len : Nat) : BitWriter :=
  bwWriteGo len w bits len

/-- Model of `BitWriter::as_bytes`: flush the final partial byte (zero-padded). -/
def bwAsBytes (w : BitWriter) : List Nat :=
  if 0 < w.bitPos then w.buffer ++ [w.current] else w.buffer

/-- Model of `BitReader` cursor into a fixed buffer. -/
structure BitReader where
  bytePos : Nat
  bitPos : Nat
deriving DecidableEq, Repr

/-- Model of `BitReader::read` loop: read `len` bits MSB-first; `none` once the
buffer is exhausted.  Fuel = `len` suffices. -/
def brReadGo : Nat → List Nat → BitReader → Nat → Nat → Option (Nat × BitReader)
| 0, _, br, _, val => some (val, br)
| fuel + 1, buffer, br, len, val =>
  if len = 0 then some (val, br)
  else if buffer.length ≤ br.bytePos then none
  else
    let bitsToRead := min (8 - br.bitPos) len
    let mask := 2 ^ bitsToRead - 1
    let chunk := (buffer.getD br.bytePos 0 >>> (8 - br.bitPos - bitsToRead)) &&& mask
    let val' := val <<< bitsToRead ||| chunk
    let bitPos := br.bitPos + bitsToRead
    let br' : BitReader :=
      if bitPos = 8 then ⟨br.bytePos + 1, 0⟩ else ⟨br.bytePos, bitPos⟩
    brReadGo fuel buffer br' (len - bitsToRead) val'

/-- Model of `BitReader::read`. -/
def brRead (buffer : List Nat) (br : BitReader) (len : Nat) :
    Option (Nat × BitReader) :=
  brReadGo len buffer br len 0

/-! #### Encoder and decoder (`huff.rs`) -/

/-- Model of `huff::encode`: codebook header followed by the bit-packed symbol
stream (symbols with `len == 0` are skipped, as in the source). -/
def huff_encode (input : List Nat) : Except String (List Nat) :=
  if input = [] then .ok []
  else
    let freqs := input.foldl
      (fun f byte => f.set byte (f.getD byte 0 + 1)) (List.replicate 256 0)
    match CanonicalCode_new freqs with
    | .error e => .error e
    | .ok huffTree =>
      let out := write_lengths huffTree.codes
      let bw := input.foldl
        (fun bw byte =>
          let hc := huffTree.codes.get byte
          if 0 < hc.len then bwWrite bw hc.code hc.len else bw)
        ⟨[], 0, 0⟩
      .ok (out ++ bwAsBytes bw)

/-- The linear codebook scan inside `decode_slow`: first symbol whose
`(code, len)` matches. -/
def findSym (codes : Arr HuffCode) (len code : Nat) : Option Nat :=
  (List.range 256).find? (fun s => (codes.get s).len = len && (codes.get s).code = code)

/-- Model of `huff::decode_slow`: read one bit at a time, up to `MAX_CODE_LEN`
bits, scanning the codebook at each length.  Returns the symbol and the
advanced cursor. -/
def decode_slow (codes : Arr HuffCode) (buffer : List Nat) :
    Nat → BitReader → Nat → Nat → Option (Nat × BitReader)
| 0, _, _, _ => none
| fuel + 1, br, code, len =>
  match brRead buffer br 1 with
  | none => none
  | some (bit, br') =>
    let code' := code * 2 ||| bit
    let len' := len + 1
    match findSym codes len' code' with
    | some sym => some (sym, br')
    | none => decode_slow codes buffer fuel br' code' len'

/-- The `peek16` closure in `huff::decode`: peek 16 bits at the cursor.
With at least 4 bytes remaining it reads a 32-bit big-endian word
(the unaligned fast path); otherwise it zero-pads the tail.  Both paths
compute the same shift-and-mask expression, modelled directly. -/
def peek16 (bitBuf : List Nat) (bp bpos : Nat) : Nat :=
  let remaining := bitBuf.length - bp
  let acc :=
    if 4 ≤ remaining then
      (bitBuf.getD bp 0 <<< 24) ||| (bitBuf.getD (bp + 1) 0 <<< 16) |||
        (bitBuf.getD (bp + 2) 0 <<< 8) ||| bitBuf.getD (bp + 3) 0
    else
      (List.range remaining).foldl
        (fun acc i => acc ||| (bitBuf.getD (bp + i) 0 <<< ((3 - i) * 8))) 0
  (acc >>> (16 - bpos)) &&& 0xFFFF

/-- Decoder loop state: cursor, symbols decoded, output so far. -/
structure DecState where
  bytePos : Nat
  bitPos : Nat
  decoded : Nat
  out : List Nat

/-- One fast-path table lookup of the decode loop (`huff.rs`): peek 16
bits, consult the fast table, fall back to `decode_slow` on a miss.
`none` models the inner `break` (no progress made). -/
def innerOnce (cc : CanonicalCode) (bitBuf : List Nat) (st : DecState) :
    Option DecState :=
  let idx := peek16 bitBuf st.bytePos st.bitPos
  let entry := cc.fast_decode_table.get idx
  if entry.len = 0 then
    match decode_slow cc.codes bitBuf MAX_CODE_LEN ⟨st.bytePos, st.bitPos⟩ 0 0 with
    | some (sym, br) => some ⟨br.bytePos, br.bitPos, st.decoded + 1, st.out ++ [sym]⟩
    | none => none
  else
    let bitPos := st.bitPos + entry.len
    some ⟨st.bytePos + bitPos / 8, bitPos % 8, st.decoded + 1, st.out ++ [entry.symbol]⟩

/-- The unrolled-by-two fast path (`for _ in 0..2`), with the early
`break` once `decoded >= expect`.  A failed lookup breaks out of the
`for` only, leaving the state unchanged. -/
def innerTwo (cc : CanonicalCode) (bitBuf : List Nat) (st : DecState)
    (expect : Nat) : DecState :=
  match innerOnce cc bitBuf st with
  | none => st
  | some s1 =>
    if expect ≤ s1.decoded then s1
    else
      match innerOnce cc bitBuf s1 with
      | none => s1
      | some s2 => s2

/-- The `while decoded < expect` loop of `huff::decode`.  `none` means
the fuel ran out.  Every outer iteration of the source loop either
terminates the loop or decodes at least one symbol — except when a
fast-path iteration makes no progress, in which case the state is
unchanged and the source loop spins forever.  Hence with fuel
`expect + 2` the model returns `some` exactly for terminating source
runs (with the same output) and `none` exactly when the source
diverges. -/
def decodeLoop (cc : CanonicalCode) (bitBuf : List Nat) (expect : Nat) :
    Nat → DecState → Option (List Nat)
| 0, _ => none
| fuel + 1, st =>
  if expect ≤ st.decoded then some st.out
  else
    let totalBits := bitBuf.length * 8
    let bitsConsumed := st.bytePos * 8 + st.bitPos
    if totalBits ≤ bitsConsumed then some st.out
    else if totalBits - bitsConsumed < FAST_DECODE_BITS then
      match decode_slow cc.codes bitBuf MAX_CODE_LEN ⟨st.bytePos, st.bitPos⟩ 0 0 with
      | some (sym, br) =>
        decodeLoop cc bitBuf expect fuel ⟨br.bytePos, br.bitPos, st.decoded + 1, st.out ++ [sym]⟩
      | none => some st.out
    else
      decodeLoop cc bitBuf expect fuel (innerTwo cc bitBuf st expect)

/-- Read the `(symbol, length)` pairs of a serialized codebook. -/
def readPairs : Nat → List Nat → List (Nat × Nat)
| 0, _ => []
| _ + 1, [] => []
| _ + 1, [_] => []
| count + 1, sym :: len :: rest => (sym, len) :: readPairs count rest

/-- Model of `CanonicalCode::read_lengths`: count byte, `(symbol, length)` pairs
overwriting a zeroed array, then the same code assignment as
`from_lengths`.  Returns the codebook and the bytes consumed.  The
process-wide `CODE_CACHE` is not modelled: its entries are pure
functions of the length vector and the cache-hit path reconstructs the
identical codebook. -/
def read_lengths (input : List Nat) : Except String (CanonicalCode × Nat) :=
  match input with
  | [] => .error "failed to fill whole buffer"
  | count :: rest =>
    if rest.length < 2 * count then .error "failed to fill whole buffer"
    else
      let pairs := readPairs count rest
      let lengths := pairs.foldl (fun l p => l.set p.1 p.2) (List.replicate 256 0)
      match from_lengths lengths with
      | .error e => .error e
      | .ok cc => .ok (cc, 1 + 2 * count)

/-- Model of `usize::MAX` (64-bit target), the `expect` used when no
`expected_size` is supplied. -/
def USIZE_MAX : Nat := 2 ^ 64 - 1

/-- Model of `huff::decode`: parse the codebook, then run the decode loop over
the remaining bytes. -/
def huff_decode (input : List Nat) (expected_size : Option Nat) :
    Except String (List Nat) :=
  if input = [] then .ok []
  else
    match read_lengths input with
    | .error e => .error e
    | .ok (huffTree, dataStartPos) =>
      let bitBuf := input.drop dataStartPos
      let expect := expected_size.getD USIZE_MAX
      match decodeLoop huffTree bitBuf expect (expect + 2) ⟨0, 0, 0, []⟩ with
      | some out => .ok out
      | none => .error "decode loop makes no progress"

/-! ### block_coder.rs -/

/-- Model of `block_coder::BLOCK_SIZE` -/
def BLOCK_SIZE : Nat := 4096

/-- Model of `block_coder::encode_block`: empty input is framed raw; otherwise
Huffman is attempted and kept only when strictly smaller than the input,
falling back to raw framing. -/
def encode_block (input : List Nat) : Except String (List Nat) :=
  if input = [] then
    match raw_encode input with
    | .error e => .error e
    | .ok rawEncoded => .ok (0 :: rawEncoded)
  else
    match huff_encode input with
    | .error e => .error e
    | .ok huffEncoded =>
      if huffEncoded.length < input.length then
        .ok (1 :: (write_varint_u64 input.length ++ huffEncoded))
      else
        match raw_encode input with
        | .error e => .error e
        | .ok rawEncoded => .ok (0 :: rawEncoded)

/-- Model of `block_coder::decode_block`: dispatch on the tag byte; for Huffman
read the varint original length and decode with that `expected_size`. -/
def decode_block (input : List Nat) : Except String (List Nat) :=
  match input with
  | [] => .error "Input to decode_block cannot be empty."
  | tag :: payload =>
    if tag = 0 then raw_decode payload
    else if tag = 1 then
      match read_varint_u64 payload with
      | none => .error "Failed to read varint for expected size"
      | some (expectedSize, bytesRead) =>
        huff_decode (payload.drop bytesRead) (some expectedSize)
    else .error "Unknown block type"

/-! ### encode.rs : parallel stream framing -/

/-- Model of `input.par_chunks(BLOCK_SIZE)`: contiguous chunks in order, the last
possibly shorter.  Fuel = list length (each step drops ≥ 1 element). -/
def parChunksGo : Nat → List Nat → List (List Nat)
| 0, _ => []
| fuel + 1, l =>
  if l = [] then []
  else l.take BLOCK_SIZE :: parChunksGo fuel (l.drop BLOCK_SIZE)

/-- The chunking of `encode_parallel`. -/
def parChunks (l : List Nat) : List (List Nat) :=
  parChunksGo l.length l

/-- The serialization loop of `encode_parallel`: varint length prefix
followed by each encoded block, stopping at the first error. -/
def writeBlocks : List (Except String (List Nat)) → Except String (List Nat)
| [] => .ok []
| r :: rest =>
  match r with
  | .error e => .error e
  | .ok b =>
    match writeBlocks rest with
    | .error e => .error e
    | .ok tail => .ok (write_varint_u64 b.length ++ b ++ tail)

/-- Model of `encode::encode_parallel`. -/
def encode_parallel (input : List Nat) : Except String (List Nat) :=
  if input = [] then .ok []
  else writeBlocks ((parChunks input).map encode_block)

/-- The boundary scan of `decode_parallel`: read a varint block length
at `pos`, record `[start, end)`, continue at `end`.  Each step advances
`pos` by at least one byte, so fuel = input length + 1 suffices (the
fuel-exhaustion error is unreachable). -/
def scanBoundaries (data : List Nat) : Nat → Nat → Except String (List (Nat × Nat))
| 0, _ => .error "unreachable: scan fuel exhausted"
| fuel + 1, pos =>
  if pos < data.length then
    match read_varint_u64 (data.drop pos) with
    | none => .error "Failed to read block length varint"
    | some (blockLen, varintLen) =>
      let start := pos + varintLen
      let stop := start + blockLen
      if data.length < stop then .error "Incomplete block data"
      else
        match scanBoundaries data fuel stop with
        | .error e => .error e
        | .ok rest => .ok ((start, stop) :: rest)
  else .ok []

/-- The parallel block decode of `decode_parallel`: decode every
recorded range and concatenate in input order (the source tags results
with their index and sorts, which restores exactly this order). -/
def decodeBlocks (data : List Nat) : List (Nat × Nat) → Except String (List Nat)
| [] => .ok []
| (s, e) :: rest =>
  match decode_block ((data.drop s).take (e - s)) with
  | .error err => .error err
  | .ok part =>
    match decodeBlocks data rest with
    | .error err => .error err
    | .ok tail => .ok (part ++ tail)

/-- Model of `encode::decode_parallel`. -/
def decode_parallel (encoded : List Nat) : Except String (List Nat) :=
  if encoded = [] then .ok []
  else
    match scanBoundaries encoded (encoded.length + 1) 0 with
    | .error e => .error e
    | .ok boundaries => decodeBlocks encoded boundaries

/-! ### Derived quantities used by the claims -/

/-- The Kraft sum at maximum length 15: `Σ 2^(15 − code_length[s])` over
assigned symbols. -/
def kraftSum (lengths : List Nat) : Nat :=
  (lengths.filter (fun len => 0 < len)).foldl (fun acc len => acc + 2 ^ (15 - len)) 0

/-- Model of `count(L)`: the number of symbols assigned code length `L` (`L > 0`). -/
def countLen (lengths : List Nat) (L : Nat) : Nat :=
  if L = 0 then 0 else (lengths.filter (fun len => len = L)).length

/-- The canonical-code recurrence exactly as the specification words it
(over unbounded integers): `next(L) = (next(L−1) + count(L−1)) << 1`,
starting from 0. -/
def specNext (lengths : List Nat) : Nat → Nat
| 0 => 0
| L + 1 => (specNext lengths L + countLen lengths L) * 2

/-- The rank of symbol `s` within its code length: the number of earlier
symbols with the same length. -/
def lenRank (lengths : List Nat) (s : Nat) : Nat :=
  ((lengths.take s).filter (fun len => len = lengths.getD s 0)).length

instance instDecEqExcept {ε α : Type} [DecidableEq ε] [DecidableEq α] :
    DecidableEq (Except ε α) := fun a b =>
  match a, b with
  | .ok x, .ok y =>
    if h : x = y then .isTrue (by rw [h]) else .isFalse (by intro hc; cases hc; exact h rfl)
  | .error x, .error y =>
    if h : x = y then .isTrue (by rw [h]) else .isFalse (by intro hc; cases hc; exact h rfl)
  | .ok _, .error _ => .isFalse (by intro hc; cases hc)
  | .error _, .ok _ => .isFalse (by intro hc; cases hc)

/-! ### Claim C9 : varint reader bounds -/

/-- The continuation-byte loop never succeeds while every byte seen has
bit `0x80` set; generalized over the loop counters. -/
theorem readVarintGo_all_cont :
    ∀ (r : List Nat) (i shift value : Nat),
      (∀ b ∈ r.take (10 - i), b &&& 0x80 ≠ 0) →
      readVarintGo r i shift value = none := by
  intro r
  induction r with
  | nil => intro i shift value _; rfl
  | cons b rest ih =>
    intro i shift value h
    by_cases hi : 10 ≤ i
    · simp [readVarintGo, hi]
    · have htake : 10 - i = (10 - (i + 1)) + 1 := by omega
      have hb : b &&& 0x80 ≠ 0 := by
        apply h; rw [htake]; exact List.mem_cons_self _ _
      simp only [readVarintGo, if_neg hi, if_neg hb]
      apply ih
      intro c hc
      apply h
      rw [htake]
      exact List.mem_cons_of_mem _ hc

/-- On success the loop's result counts exactly the bytes consumed,
which stays within the 10-byte budget. -/
theorem readVarintGo_consumed :
    ∀ (r : List Nat) (i shift value v c : Nat),
      readVarintGo r i shift value = some (v, c) → i + 1 ≤ c ∧ c ≤ 10 := by
  intro r
  induction r with
  | nil => intro i shift value v c h; exact absurd h (by simp [readVarintGo])
  | cons b rest ih =>
    intro i shift value v c h
    by_cases hi : 10 ≤ i
    · rw [readVarintGo, if_pos hi] at h; exact absurd h (by simp)
    · rw [readVarintGo, if_neg hi] at h
      by_cases hb : b &&& 0x80 = 0
      · rw [if_pos hb] at h
        have : c = i + 1 := by cases h; rfl
        omega
      · rw [if_neg hb] at h
        have := ih _ _ _ _ _ h
        omega

/-- C9: `read_varint_u64` consumes at most 10 bytes: it fails on the
empty input, it fails whenever all of the first (up to) 10 bytes have
the continuation bit `0x80` set (covering 11+ continuation bytes and an
input ending mid-varint), and on success it returns `(value, consumed)`
with `1 ≤ consumed ≤ 10`. -/
theorem C9_read_varint_bounds :
    read_varint_u64 [] = none ∧
    (∀ r : List Nat, (∀ b ∈ r.take 10, b &&& 0x80 ≠ 0) → read_varint_u64 r = none) ∧
    (∀ (r : List Nat) (v c : Nat), read_varint_u64 r = some (v, c) → 1 ≤ c ∧ c ≤ 10) := by
  refine ⟨rfl, ?_, ?_⟩
  · intro r h
    exact readVarintGo_all_cont r 0 0 0 (by simpa using h)
  · intro r v c h
    have := readVarintGo_consumed r 0 0 0 v c h
    omega

/-- Witness for C9 at concrete inputs: twelve continuation bytes fail,
and the one-byte varint `[5]` consumes one byte. -/
theorem C9_read_varint_bounds_witness :
    read_varint_u64 (List.replicate 12 128) = none ∧ (1 ≤ 1 ∧ 1 ≤ 10) :=
  ⟨C9_read_varint_bounds.2.1 (List.replicate 12 128) (by decide),
   C9_read_varint_bounds.2.2 [5] 5 1 (by decide)⟩

/-! ### Claim C5 : footer round-trip -/

/-- C5: for every byte sequence `x` and 32-byte hash `H`,
`verify_footer (add_footer x) = x`. -/
theorem C5_footer_roundtrip (H : List Nat → List Nat)
    (hH : ∀ y, (H y).length = 32) (x : List Nat) :
    verify_footer H (add_footer H x) = .ok x := by
  unfold verify_footer add_footer HASH_SIZE
  have hlen : (x ++ H x).length = x.length + 32 := by simp [hH x]
  rw [hlen]
  have hsplit : x.length + 32 - 32 = x.length := by omega
  rw [if_neg (by omega), hsplit]
  have htake : (x ++ H x).take x.length = x := List.take_left x (H x)
  have hdrop : (x ++ H x).drop x.length = H x := List.drop_left x (H x)
  rw [htake, hdrop]
  simp

/-- Witness for C5 with the constant zero hash and payload `[1,2,3]`. -/
theorem C5_footer_roundtrip_witness :
    verify_footer (fun _ => List.replicate 32 0)
      (add_footer (fun _ => List.replicate 32 0) [1, 2, 3]) = .ok [1, 2, 3] :=
  C5_footer_roundtrip (fun _ => List.replicate 32 0) (fun _ => by simp) [1, 2, 3]

/-! ### Claim C6 : verify_footer case analysis -/

/-- C6: `verify_footer d` fails `TooSmall` iff `|d| < 32`; otherwise,
with `payload = d` minus its last 32 bytes and `tag` those 32 bytes, it
fails `Mismatch (H payload) tag` iff `H payload ≠ tag`, and returns
exactly `payload` iff `H payload = tag`. -/
theorem C6_verify_footer_cases (H : List Nat → List Nat) (d : List Nat) :
    (verify_footer H d = .error .TooSmall ↔ d.length < 32) ∧
    (32 ≤ d.length →
      (verify_footer H d = .error (.Mismatch (H (d.take (d.length - 32)))
          (d.drop (d.length - 32))) ↔ H (d.take (d.length - 32)) ≠ d.drop (d.length - 32)) ∧
      (verify_footer H d = .ok (d.take (d.length - 32)) ↔
          H (d.take (d.length - 32)) = d.drop (d.length - 32))) := by
  by_cases hlen : d.length < 32
  · refine ⟨by simp [verify_footer, HASH_SIZE, hlen], fun h => absurd h (by omega)⟩
  · by_cases heq : H (d.take (d.length - 32)) = d.drop (d.length - 32)
    · refine ⟨by simp [verify_footer, HASH_SIZE, hlen, heq], fun _ => ?_⟩
      constructor
      · simp [verify_footer, HASH_SIZE, hlen, heq]
      · simp [verify_footer, HASH_SIZE, hlen, heq]
    · refine ⟨by simp [verify_footer, HASH_SIZE, hlen, heq, hlen], fun _ => ?_⟩
      constructor
      · simp [verify_footer, HASH_SIZE, hlen, heq]
      · simp [verify_footer, HASH_SIZE, hlen, heq]

/-- Witness for C6: a 33-byte input under the zero hash fails with a
mismatch, and a 10-byte input fails `TooSmall`. -/
theorem C6_verify_footer_cases_witness :
    verify_footer (fun _ => List.replicate 32 0) (List.replicate 33 1) =
      .error (.Mismatch (List.replicate 32 0) (List.replicate 32 1)) ∧
    verify_footer (fun _ => List.replicate 32 0) (List.replicate 10 1) =
      .error .TooSmall := by
  constructor
  · have h := ((C6_verify_footer_cases (fun _ => List.replicate 32 0)
      (List.replicate 33 1)).2 (by simp)).1.mpr (by decide)
    simpa using h
  · exact (C6_verify_footer_cases (fun _ => List.replicate 32 0)
      (List.replicate 10 1)).1.mpr (by simp)

/-! ### Claim C3 : truncated Huffman block decodes "successfully" -/

/-- C3 (evaluation of the code at the failing input): the Huffman block
`[1, 5, 1, 97, 1]` declares an original length of `n = 5` (the varint
`5` is read and passed to the Huffman decoder as `expected_size`), its
codebook assigns symbol 97 length 1, and its bitstream is empty — yet
`decode_block` returns success with the empty output instead of a
`Truncated` error. -/
theorem C3_decode_block_truncated_ok :
    decode_block [1, 5, 1, 97, 1] = .ok [] ∧
    read_varint_u64 [5, 1, 97, 1] = some (5, 1) := by
  constructor
  · decide
  · decide

/-! ### Claim C10 : decode_block on empty input; shortest block -/

/-- C10: `decode_block []` always fails; `encode_block` never returns an
empty block; the empty input encodes to the single tag byte `[0]`, which
decodes back to the empty sequence. -/
theorem C10_decode_block_empty :
    (∀ out : List Nat, decode_block [] ≠ .ok out) ∧
    (∀ x r : List Nat, encode_block x = .ok r → r ≠ []) ∧
    encode_block [] = .ok [0] ∧
    decode_block [0] = .ok [] := by
  refine ⟨?_, ?_, rfl, rfl⟩
  · intro out h
    exact absurd h (by simp [decode_block])
  · intro x r h
    unfold encode_block at h
    by_cases hx : x = []
    · rw [if_pos hx] at h
      simp only [raw_encode] at h
      cases h
      simp
    · rw [if_neg hx] at h
      cases hh : huff_encode x with
      | error e => rw [hh] at h; exact absurd h (by simp)
      | ok he =>
        rw [hh] at h
        have h2 : (if he.length < x.length then
            Except.ok (1 :: (write_varint_u64 x.length ++ he))
          else (Except.ok (0 :: x) : Except String (List Nat))) = .ok r := h
        by_cases hlt : he.length < x.length
        · rw [if_pos hlt] at h2; cases h2; simp
        · rw [if_neg hlt] at h2; cases h2; simp

/-- Witness for C10 at concrete inputs: the one-byte input `[7]`. -/
theorem C10_decode_block_empty_witness :
    decode_block [] ≠ .ok [] ∧ ([0, 7] : List Nat) ≠ [] :=
  ⟨C10_decode_block_empty.1 [], C10_decode_block_empty.2.1 [7] [0, 7] (by decide)⟩

/-! ### Claim C2 : bounded inflation -/

/-- A varint is at most 2 bytes for values below `2^14`. -/
theorem write_varint_len_le_two (v : Nat) (h : v < 2 ^ 14) :
    (write_varint_u64 v).length ≤ 2 := by
  have hv : v % 2 ^ 64 = v := Nat.mod_eq_of_lt (by omega)
  unfold write_varint_u64
  rw [hv]
  unfold writeVarintGo
  by_cases h1 : v >>> 7 = 0
  · simp [h1]
  · rw [if_neg h1]
    unfold writeVarintGo
    have h2 : v >>> 7 >>> 7 = 0 := by
      simp only [Nat.shiftRight_eq_div_pow] at *
      omega
    simp [h2]

/-- Model of `encode_block` inflates a non-empty block of at most `BLOCK_SIZE`
bytes by at most 2 bytes (tag byte plus varint minus the strict
compression gain, or tag byte alone for the raw fallback). -/
theorem encode_block_len_le (c r : List Nat) (hne : c ≠ [])
    (hsz : c.length ≤ 4096) (h : encode_block c = .ok r) :
    r.length ≤ c.length + 2 := by
  unfold encode_block at h
  rw [if_neg hne] at h
  cases hh : huff_encode c with
  | error e => rw [hh] at h; exact absurd h (by simp)
  | ok he =>
    rw [hh] at h
    have h2 : (if he.length < c.length then
        Except.ok (1 :: (write_varint_u64 c.length ++ he))
      else (Except.ok (0 :: c) : Except String (List Nat))) = .ok r := h
    by_cases hlt : he.length < c.length
    · rw [if_pos hlt] at h2
      cases h2
      have hv : (write_varint_u64 c.length).length ≤ 2 :=
        write_varint_len_le_two c.length (by omega)
      simp only [List.length_cons, List.length_append]
      omega
    · rw [if_neg hlt] at h2
      cases h2
      simp

/-- Every chunk produced by the fueled chunker is non-empty and at most
`BLOCK_SIZE` bytes. -/
theorem parChunksGo_mem :
    ∀ (fuel : Nat) (l : List Nat), ∀ c ∈ parChunksGo fuel l,
      c ≠ [] ∧ c.length ≤ 4096 := by
  intro fuel
  induction fuel with
  | zero => intro l c hc; exact absurd hc (by simp [parChunksGo])
  | succ n ih =>
    intro l c hc
    unfold parChunksGo at hc
    by_cases hl : l = []
    · rw [if_pos hl] at hc; exact absurd hc (by simp)
    · rw [if_neg hl] at hc
      rcases List.mem_cons.mp hc with rfl | hmem
      · refine ⟨?_, by simp [BLOCK_SIZE]⟩
        intro ht
        have : l = [] := by
          cases l with
          | nil => rfl
          | cons a as => simp [BLOCK_SIZE] at ht
        exact hl this
      · exact ih _ c hmem

/-- The chunks partition the input: their lengths sum to the input
length (given enough fuel). -/
theorem parChunksGo_sum :
    ∀ (fuel : Nat) (l : List Nat), l.length ≤ fuel →
      ((parChunksGo fuel l).map List.length).sum = l.length := by
  intro fuel
  induction fuel with
  | zero =>
    intro l h
    have : l = [] := List.eq_nil_of_length_eq_zero (by omega)
    subst this; rfl
  | succ n ih =>
    intro l h
    unfold parChunksGo
    by_cases hl : l = []
    · subst hl; rfl
    · rw [if_neg hl]
      have hlen : 0 < l.length := List.length_pos.mpr hl
      have hrec := ih (l.drop 4096) (by simp; omega)
      simp only [BLOCK_SIZE, List.map_cons, List.sum_cons, List.length_take]
      rw [hrec]
      simp only [List.length_drop]
      omega

/-- The number of chunks is `ceil(n / BLOCK_SIZE)` (given enough fuel). -/
theorem parChunksGo_count :
    ∀ (fuel : Nat) (l : List Nat), l.length ≤ fuel →
      (parChunksGo fuel l).length = (l.length + 4095) / 4096 := by
  intro fuel
  induction fuel with
  | zero =>
    intro l h
    have : l = [] := List.eq_nil_of_length_eq_zero (by omega)
    subst this; rfl
  | succ n ih =>
    intro l h
    unfold parChunksGo
    by_cases hl : l = []
    · subst hl; rfl
    · rw [if_neg hl]
      have hlen : 0 < l.length := List.length_pos.mpr hl
      have hrec := ih (l.drop 4096) (by simp; omega)
      simp only [BLOCK_SIZE, List.length_cons]
      rw [hrec]
      simp only [List.length_drop]
      omega

/-- Serializing the encoded blocks adds at most 4 bytes per block
(2-byte varint plus 2 bytes of block overhead). -/
theorem writeBlocks_len_le :
    ∀ (cs : List (List Nat)) (out : List Nat),
      (∀ c ∈ cs, c ≠ [] ∧ c.length ≤ 4096) →
      writeBlocks (cs.map encode_block) = .ok out →
      out.length ≤ (cs.map List.length).sum + 4 * cs.length := by
  intro cs
  induction cs with
  | nil => intro out _ h; cases h; simp
  | cons c rest ih =>
    intro out hmem h
    simp only [List.map_cons] at h
    unfold writeBlocks at h
    cases hb : encode_block c with
    | error e => rw [hb] at h; exact absurd h (by simp)
    | ok b =>
      rw [hb] at h
      have h2 : (match writeBlocks (rest.map encode_block) with
        | .error e => (.error e : Except String (List Nat))
        | .ok tail => .ok (write_varint_u64 b.length ++ b ++ tail)) = .ok out := h
      cases ht : writeBlocks (rest.map encode_block) with
      | error e => rw [ht] at h2; exact absurd h2 (by simp)
      | ok tail =>
        rw [ht] at h2
        cases h2
        have hc := hmem c (by simp)
        have hblen : b.length ≤ c.length + 2 := encode_block_len_le c b hc.1 hc.2 hb
        have hv : (write_varint_u64 b.length).length ≤ 2 :=
          write_varint_len_le_two b.length (by omega)
        have htail := ih tail (fun d hd => hmem d (by simp [hd])) ht
        simp only [List.length_append, List.map_cons, List.sum_cons, List.length_cons]
        omega

/-- C2: the encoded stream is at most `|x| + 12·ceil(|x|/4096) + 2`
bytes: per block there are at most 2 bytes of stream varint, 1 tag
byte, and at most 2 further bytes (varint original length, offset by
the strictly-smaller Huffman payload), all within the 12-byte budget. -/
theorem C2_encode_parallel_inflation (x out : List Nat)
    (h : encode_parallel x = .ok out) :
    out.length ≤ x.length + 12 * ((x.length + 4095) / 4096) + 2 := by
  unfold encode_parallel at h
  by_cases hx : x = []
  · rw [if_pos hx] at h
    cases h
    simp [hx]
  · rw [if_neg hx] at h
    have hmem := parChunksGo_mem x.length x
    have hsum := parChunksGo_sum x.length x (le_refl _)
    have hcount := parChunksGo_count x.length x (le_refl _)
    have hb := writeBlocks_len_le (parChunks x) out (fun c hc => hmem c hc) h
    unfold parChunks at hb
    omega

/-- Witness for C2 at the concrete input `[7,7]` (raw fallback block). -/
theorem C2_encode_parallel_inflation_witness :
    ([3, 0, 7, 7] : List Nat).length ≤
      ([7, 7] : List Nat).length + 12 * ((([7, 7] : List Nat).length + 4095) / 4096) + 2 :=
  C2_encode_parallel_inflation [7, 7] [3, 0, 7, 7] (by decide)

/-! ### Claim C4 : the Kraft inequality fails after clamping -/

/-- A frequency array on which the Huffman tree is a depth-20 chain:
symbol `k` (for `k ≤ 20`) has frequency `2^k`.  All frequencies and all
intermediate merged weights are distinct, so no tie-breaking is
involved in the merge order. -/
def c4freqs : List Nat :=
  (List.range 256).map (fun i => if i ≤ 20 then 2 ^ i else 0)

/-- C4 (evaluation of the code at the failing input): on `c4freqs` the
code lengths computed by `CanonicalCode::new` (via `huffLengths`, which
clamps lengths above 15 without Kraft repair) give
`Σ 2^(15 − L_s) = 32773 > 32768 = 2^15`: the Kraft inequality at
maximum length 15 is violated, and `CanonicalCode_new` still accepts
the lengths. -/
theorem C4_kraft_violated :
    kraftSum (huffLengths c4freqs) = 32773 ∧ 2 ^ 15 < 32773 ∧
    (CanonicalCode_new c4freqs = from_lengths (huffLengths c4freqs)) := by
  refine ⟨by decide, by decide, rfl⟩

/-! ### Claims C7/C8 : canonical code assignment machinery -/

theorem upd_get {α : Type} (a : Arr α) (i : Nat) (v : α) (j : Nat) :
    (upd a i v).get j = if j = i then v else a.get j := rfl

theorem countLen_zero (lengths : List Nat) : countLen lengths 0 = 0 := by
  simp [countLen]

theorem countLen_nil (L : Nat) : countLen [] L = 0 := by
  simp [countLen]

theorem countLen_cons (len : Nat) (rest : List Nat) (L : Nat) (hL : 0 < L) :
    countLen (len :: rest) L = (if len = L then 1 else 0) + countLen rest L := by
  have hL0 : ¬(L = 0) := by omega
  simp only [countLen, if_neg hL0, List.filter_cons, decide_eq_true_eq]
  by_cases h : len = L
  · rw [if_pos h, if_pos h, List.length_cons]
    omega
  · rw [if_neg h, if_neg h]
    omega

theorem countLen_singleton (x L : Nat) (hL : 0 < L) :
    countLen [x] L = if x = L then 1 else 0 := by
  have h := countLen_cons x [] L hL
  rw [countLen_nil] at h
  omega

theorem countLen_append (a b : List Nat) (L : Nat) (hL : 0 < L) :
    countLen (a ++ b) L = countLen a L + countLen b L := by
  have hL0 : ¬(L = 0) := by omega
  simp only [countLen, if_neg hL0, List.filter_append, List.length_append]

/-- Appending one more symbol to the prefix window bumps the per-length
count exactly when that symbol has the length in question. -/
theorem countLen_take_succ (lengths : List Nat) (k L : Nat) (hL : 0 < L) :
    countLen (lengths.take (k + 1)) L =
      countLen (lengths.take k) L + (if lengths.getD k 0 = L then 1 else 0) := by
  by_cases hk : k < lengths.length
  · rw [List.take_succ]
    rw [List.getElem?_eq_getElem hk]
    simp only [Option.toList_some]
    rw [countLen_append _ _ _ hL, countLen_singleton _ _ hL]
    rw [List.getD_eq_getElem?_getD, List.getElem?_eq_getElem hk]
    simp only [Option.getD_some]
  · have h1 : lengths.take (k + 1) = lengths.take k := by
      rw [List.take_of_length_le (by omega), List.take_of_length_le (by omega)]
    have h2 : lengths.getD k 0 = 0 := by
      rw [List.getD_eq_getElem?_getD, List.getElem?_eq_none (by omega)]
      rfl
    rw [h1, h2, if_neg (by omega)]
    omega

theorem lenRank_eq_countLen (lengths : List Nat) (s : Nat)
    (hpos : 0 < lengths.getD s 0) :
    lenRank lengths s = countLen (lengths.take s) (lengths.getD s 0) := by
  unfold lenRank countLen
  rw [if_neg (by omega)]

/-- The `bl_count` loop counts symbols per length. -/
theorem blCount_go (l : List Nat) :
    ∀ (a : Arr Nat) (L : Nat),
      (l.foldl (fun bl len => if 0 < len then upd bl len (bl.get len + 1) else bl) a).get L
        = a.get L + countLen l L := by
  induction l with
  | nil => intro a L; simp [countLen_nil]
  | cons len rest ih =>
    intro a L
    simp only [List.foldl_cons]
    by_cases hlen : 0 < len
    · rw [if_pos hlen, ih]
      rcases Nat.eq_zero_or_pos L with rfl | hLpos
      · rw [countLen_zero, countLen_zero, upd_get, if_neg (by omega)]
      · rw [countLen_cons len rest L hLpos, upd_get]
        by_cases hLl : L = len
        · subst hLl; rw [if_pos rfl, if_pos rfl]; omega
        · rw [if_neg hLl, if_neg (fun h => hLl h.symm)]; omega
    · rw [if_neg hlen, ih]
      rcases Nat.eq_zero_or_pos L with rfl | hLpos
      · rw [countLen_zero, countLen_zero]
      · rw [countLen_cons len rest L hLpos, if_neg (by omega)]
        omega

theorem blCount_get (lengths : List Nat) (L : Nat) :
    (blCount lengths).get L = countLen lengths L := by
  unfold blCount
  rw [blCount_go]
  show 0 + countLen lengths L = countLen lengths L
  omega

/-- The `next_code` loop computes the specification's canonical
recurrence, reduced modulo `2^16` (the `u16` wrap). -/
theorem nextCodesUpTo_get (lengths : List Nat) :
    ∀ (k : Nat), k ≤ 15 → ∀ b : Nat,
      (nextCodesUpTo (blCount lengths) k).get b =
        if b ≤ k then specNext lengths b % 2 ^ 16 else 0 := by
  intro k
  induction k with
  | zero =>
    intro _ b
    unfold nextCodesUpTo
    simp only [List.range_zero, List.map_nil, List.foldl_nil]
    by_cases hb : b = 0
    · subst hb; simp [specNext]
    · rw [if_neg (by omega)]
  | succ n ih =>
    intro hk b
    have hrange : (List.range (n + 1)).map (· + 1) =
        ((List.range n).map (· + 1)) ++ [n + 1] := by
      rw [List.range_succ, List.map_append]
      rfl
    unfold nextCodesUpTo
    rw [hrange, List.foldl_append]
    have hst : ((List.range n).map (· + 1)).foldl (nextStep (blCount lengths))
        ⟨fun _ => 0⟩ = nextCodesUpTo (blCount lengths) n := rfl
    rw [hst]
    simp only [List.foldl_cons, List.foldl_nil]
    unfold nextStep
    rw [upd_get]
    by_cases hb : b = n + 1
    · subst hb
      rw [if_pos rfl, if_pos (le_refl _)]
      have hn : n + 1 - 1 = n := rfl
      rw [hn, ih (by omega) n, if_pos (le_refl n), blCount_get]
      show ((specNext lengths n % 2 ^ 16 + countLen lengths n) * 2) % 2 ^ 16
          = specNext lengths (n + 1) % 2 ^ 16
      rw [specNext]
      omega
    · rw [if_neg hb, ih (by omega) b]
      by_cases hbn : b ≤ n
      · rw [if_pos hbn, if_pos (by omega)]
      · rw [if_neg hbn, if_neg (by omega)]

/-- Invariant of the code-assignment loop: after processing symbols
`0..k`, `next_code[L]` is the specification's `next(L)` plus the number
of length-`L` symbols already assigned (mod `2^16`), and each assigned
symbol `i < k` holds code `next(L_i) + rank(i)` (mod `2^16`) with its
length. -/
theorem assignUpTo_spec (lengths : List Nat) (hlen : ∀ L ∈ lengths, L ≤ 15) :
    ∀ k : Nat,
      (∀ L, 1 ≤ L → L ≤ 15 →
        (assignUpTo lengths k).2.get L
          = (specNext lengths L + countLen (lengths.take k) L) % 2 ^ 16) ∧
      (∀ i, (assignUpTo lengths k).1.get i =
        if i < k ∧ 0 < lengths.getD i 0 then
          ⟨(specNext lengths (lengths.getD i 0) + lenRank lengths i) % 2 ^ 16,
           lengths.getD i 0⟩
        else default) := by
  intro k
  induction k with
  | zero =>
    constructor
    · intro L hL1 hL15
      show (assignInit lengths).2.get L = _
      unfold assignInit nextCodes MAX_CODE_LEN
      rw [nextCodesUpTo_get lengths 15 (le_refl _) L, if_pos hL15]
      rw [List.take_zero, countLen_nil]
      omega
    · intro i
      rw [if_neg (by omega)]
      rfl
  | succ n ih =>
    have hunf : assignUpTo lengths (n + 1)
        = assignStep lengths (assignUpTo lengths n) n := by
      unfold assignUpTo
      rw [List.range_succ, List.foldl_append]
      rfl
    by_cases hpos : 0 < lengths.getD n 0
    · have hmem : lengths.getD n 0 ∈ lengths := by
        have hn : n < lengths.length := by
          by_contra hc
          rw [List.getD_eq_getElem?_getD, List.getElem?_eq_none (by omega)] at hpos
          exact absurd hpos (by simp)
        rw [List.getD_eq_getElem?_getD, List.getElem?_eq_getElem hn]
        exact List.getElem_mem hn
      have hle15 : lengths.getD n 0 ≤ 15 := hlen _ hmem
      constructor
      · intro L hL1 hL15
        rw [hunf]
        simp only [assignStep, if_pos hpos]
        rw [upd_get]
        rw [countLen_take_succ lengths n L (by omega)]
        by_cases hLn : L = lengths.getD n 0
        · rw [if_pos hLn, if_pos hLn.symm]
          rw [ih.1 (lengths.getD n 0) (by omega) hle15]
          rw [hLn]
          omega
        · rw [if_neg hLn, if_neg (fun h => hLn h.symm)]
          rw [ih.1 L hL1 hL15]
          omega
      · intro i
        rw [hunf]
        simp only [assignStep, if_pos hpos]
        rw [upd_get]
        by_cases hin : i = n
        · subst hin
          rw [if_pos rfl, if_pos ⟨by omega, hpos⟩]
          rw [ih.1 (lengths.getD i 0) (by omega) hle15]
          rw [lenRank_eq_countLen lengths i hpos]
        · rw [if_neg hin, ih.2 i]
          by_cases hi : i < n ∧ 0 < lengths.getD i 0
          · rw [if_pos hi, if_pos ⟨by omega, hi.2⟩]
          · rw [if_neg hi, if_neg (by omega)]
    · constructor
      · intro L hL1 hL15
        rw [hunf]
        simp only [assignStep, if_neg hpos]
        rw [countLen_take_succ lengths n L (by omega), if_neg (by omega)]
        rw [ih.1 L hL1 hL15]
        omega
      · intro i
        rw [hunf]
        simp only [assignStep, if_neg hpos]
        rw [ih.2 i]
        by_cases hi : i < n ∧ 0 < lengths.getD i 0
        · rw [if_pos hi, if_pos ⟨by omega, hi.2⟩]
        · rw [if_neg hi]
          rw [if_neg (by
            intro hcon
            rcases hcon with ⟨hlt, hp⟩
            rcases Nat.lt_succ_iff_lt_or_eq.mp hlt with h | h
            · exact hi ⟨h, hp⟩
            · subst h; exact absurd hp hpos)]

/-! ### Claim C7 : canonical code values -/

/-- A length array accepted by `from_lengths` on which the integer
canonical recurrence overflows `u16`: 255 symbols of length 1 and one
symbol of length 10. -/
def c7lengths : List Nat := List.replicate 255 1 ++ [10]

/-- C7 counterexample: on `c7lengths` (accepted by `from_lengths`), the
only symbol of length 10 — the first code of that length — receives the
code value 65024, whereas the claim's recurrence
`next(L) = (next(L−1) + count(L−1)) << 1` starting at `next(1) = 0`
gives `next(10) = 130560`: the assigned value is the recurrence value
reduced modulo `2^16`, not the recurrence value itself. -/
theorem C7_counterexample :
    from_lengths c7lengths =
      .ok ⟨fromLengthsCodes c7lengths,
           build_fast_decode_table (fromLengthsCodes c7lengths)⟩ ∧
    (fromLengthsCodes c7lengths).get 255 = ⟨65024, 10⟩ ∧
    specNext c7lengths 10 = 130560 ∧ (65024 : Nat) ≠ 130560 := by
  refine ⟨by rfl, by decide, by decide, by decide⟩

/-- The code assigned by `from_lengths` to symbol `s` is
`(next(L_s) + rank(s)) mod 2^16`, where `next` is the specification's
canonical recurrence over the integers and `rank(s)` counts earlier
symbols of the same length. -/
theorem canonical_code_formula (lengths : List Nat)
    (hlen : ∀ L ∈ lengths, L ≤ 15) (s : Nat) (hs : s < 256)
    (hpos : 0 < lengths.getD s 0) :
    (fromLengthsCodes lengths).get s =
      ⟨(specNext lengths (lengths.getD s 0) + lenRank lengths s) % 2 ^ 16,
       lengths.getD s 0⟩ := by
  have h := (assignUpTo_spec lengths hlen 256).2 s
  unfold fromLengthsCodes assignCodes
  rw [h, if_pos ⟨hs, hpos⟩]

/-- C7 (amended: the recurrence and the consecutive code values hold
modulo `2^16`, the `u16` width of `next_code`): for every lengths array
accepted by `from_lengths` and every assigned symbol `s`, its code is
`(next(L_s) + rank(s)) mod 2^16`, where `next` is the specification's
canonical recurrence over the integers and `rank(s)` counts earlier
symbols of the same length — so codes within one length, in ascending
symbol order, are consecutive modulo `2^16`, and the first code of each
length is the recurrence value modulo `2^16`. -/
theorem C7_canonical_codes (lengths : List Nat)
    (hlen : ∀ L ∈ lengths, L ≤ 15) (s : Nat) (hs : s < 256)
    (hpos : 0 < lengths.getD s 0) :
    (fromLengthsCodes lengths).get s =
      ⟨(specNext lengths (lengths.getD s 0) + lenRank lengths s) % 2 ^ 16,
       lengths.getD s 0⟩ :=
  canonical_code_formula lengths hlen s hs hpos

/-- Witness for C7 on the accepted lengths array `[2, 2, 1]` (padded
with zeros): symbol 1 is the second symbol of length 2. -/
theorem C7_canonical_codes_witness :
    (fromLengthsCodes ([2, 2, 1] ++ List.replicate 253 0)).get 1 =
      ⟨(specNext ([2, 2, 1] ++ List.replicate 253 0)
          (([2, 2, 1] ++ List.replicate 253 0).getD 1 0) +
        lenRank ([2, 2, 1] ++ List.replicate 253 0) 1) % 2 ^ 16,
       ([2, 2, 1] ++ List.replicate 253 0).getD 1 0⟩ :=
  C7_canonical_codes ([2, 2, 1] ++ List.replicate 253 0) (by decide) 1
    (by decide) (by decide)

/-! ### Claim C8 : fast decode table -/

/-- A length array accepted by `from_lengths` that violates the Kraft
inequality: four symbols of length 1 and one of length 15.  The
canonical `next_code` computation wraps (`next(15) = 2^16 ≡ 0`), so
symbol 4 receives code 0 of length 15 and its table insertion
overwrites part of symbol 0's range. -/
def c8lengths : List Nat := [1, 1, 1, 1, 15] ++ List.replicate 251 0

/-- C8 counterexample: on `c8lengths`, symbol 0 holds code 0 of
length 1, whose left-aligned range is the 2^15 indices `[0, 32768)`,
yet fast-table index 0 holds `(4, 15)` (symbol 4's wrapped code 0 was
inserted later), so not all `2^(16-1)` indices of symbol 0's range hold
`(0, 1)`. -/
theorem C8_counterexample :
    (fromLengthsCodes c8lengths).get 0 = ⟨0, 1⟩ ∧
    (fromLengthsCodes c8lengths).get 4 = ⟨0, 15⟩ ∧
    (build_fast_decode_table (fromLengthsCodes c8lengths)).get 0 = ⟨4, 15⟩ ∧
    FastDecodeEntry.mk 4 15 ≠ ⟨0, 1⟩ := by
  refine ⟨by decide, by decide, by decide, by decide⟩

theorem kraft_fold_init :
    ∀ (l : List Nat) (a : Nat),
      l.foldl (fun acc len => acc + 2 ^ (15 - len)) a
        = a + l.foldl (fun acc len => acc + 2 ^ (15 - len)) 0 := by
  intro l
  induction l with
  | nil => intro a; simp
  | cons x xs ih =>
    intro a
    simp only [List.foldl_cons]
    rw [ih (a + 2 ^ (15 - x)), ih (0 + 2 ^ (15 - x))]
    omega

theorem kraftSum_cons (len : Nat) (rest : List Nat) :
    kraftSum (len :: rest)
      = (if 0 < len then 2 ^ (15 - len) else 0) + kraftSum rest := by
  unfold kraftSum
  rw [List.filter_cons]
  by_cases h : 0 < len
  · rw [if_pos (by simpa using h), if_pos h]
    simp only [List.foldl_cons]
    rw [kraft_fold_init]
    omega
  · rw [if_neg (by simpa using h), if_neg h]
    omega

/-- Prepending one symbol to the lengths shifts the canonical
recurrence by exactly that symbol's Kraft weight at scale `b`. -/
theorem specNext_cons (len : Nat) (rest : List Nat) :
    ∀ b, specNext (len :: rest) b
      = specNext rest b + (if 1 ≤ len ∧ len < b then 2 ^ (b - len) else 0) := by
  intro b
  induction b with
  | zero => simp [specNext]
  | succ n ih =>
    rw [specNext, specNext, ih]
    rcases Nat.eq_zero_or_pos n with rfl | hn
    · rw [countLen_zero, countLen_zero]
      rw [if_neg (by omega), if_neg (by omega)]
      omega
    · rw [countLen_cons len rest n hn]
      by_cases h1 : 1 ≤ len
      · by_cases h2 : len < n
        · rw [if_pos ⟨h1, h2⟩, if_neg (by omega), if_pos ⟨h1, by omega⟩]
          have hp : 2 ^ (n - len) * 2 = 2 ^ (n + 1 - len) := by
            rw [← pow_succ]
            congr 1
            omega
          omega
        · by_cases h3 : len = n
          · subst h3
            rw [if_neg (by omega), if_pos rfl, if_pos ⟨h1, by omega⟩]
            have hp : 2 ^ (len + 1 - len) = 2 := by
              rw [show len + 1 - len = 1 by omega, pow_one]
            omega
          · rw [if_neg (by omega), if_neg (by omega), if_neg (by omega)]
            omega
      · rw [if_neg (by omega), if_neg (by omega), if_neg (by omega)]
        omega

/-- With all lengths at most 15, `next(15) + count(15)` is exactly the
Kraft sum. -/
theorem kraft_identity :
    ∀ (lengths : List Nat), (∀ L ∈ lengths, L ≤ 15) →
      specNext lengths 15 + countLen lengths 15 = kraftSum lengths := by
  intro lengths
  induction lengths with
  | nil => intro _; decide
  | cons len rest ih =>
    intro hmem
    rw [specNext_cons, countLen_cons len rest 15 (by omega), kraftSum_cons]
    have h15 : len ≤ 15 := hmem len (by simp)
    have hrest := ih (fun L hL => hmem L (by simp [hL]))
    by_cases h1 : 1 ≤ len
    · by_cases h2 : len < 15
      · rw [if_pos ⟨h1, h2⟩, if_neg (by omega), if_pos (show 0 < len by omega)]
        omega
      · have h3 : len = 15 := by omega
        subst h3
        rw [if_neg (by omega), if_pos rfl, if_pos (by omega)]
        simp only [Nat.sub_self, pow_zero]
        omega
    · rw [if_neg (by omega), if_neg (by omega), if_neg (by omega)]
      omega

/-- The partial Kraft mass through length `b` is below the full Kraft
sum. -/
theorem specNext_partial_le (lengths : List Nat)
    (hlen : ∀ L ∈ lengths, L ≤ 15) :
    ∀ d b, b + d = 15 → 1 ≤ b →
      (specNext lengths b + countLen lengths b) * 2 ^ (15 - b)
        ≤ kraftSum lengths := by
  intro d
  induction d with
  | zero =>
    intro b hb _
    have hb15 : b = 15 := by omega
    subst hb15
    rw [Nat.sub_self, pow_zero, mul_one]
    rw [kraft_identity lengths hlen]
  | succ n ih =>
    intro b hb hb1
    have hstep : (specNext lengths b + countLen lengths b) * 2 ^ (15 - b)
        = specNext lengths (b + 1) * 2 ^ (15 - (b + 1)) := by
      rw [specNext]
      have hp : 2 ^ (15 - b) = 2 * 2 ^ (15 - (b + 1)) := by
        rw [← pow_succ']
        congr 1
        omega
      rw [hp]
      ring
    rw [hstep]
    calc specNext lengths (b + 1) * 2 ^ (15 - (b + 1))
        ≤ (specNext lengths (b + 1) + countLen lengths (b + 1)) * 2 ^ (15 - (b + 1)) :=
          Nat.mul_le_mul_right _ (by omega)
      _ ≤ kraftSum lengths := ih (b + 1) (by omega) (by omega)

/-- Under the Kraft inequality the canonical codes of each length fit
in `b` bits: `next(b) + count(b) ≤ 2^b`. -/
theorem kraft_bound (lengths : List Nat) (hlen : ∀ L ∈ lengths, L ≤ 15)
    (hkraft : kraftSum lengths ≤ 2 ^ 15) :
    ∀ b, 1 ≤ b → b ≤ 15 →
      specNext lengths b + countLen lengths b ≤ 2 ^ b := by
  intro b h1 h15
  have hu := specNext_partial_le lengths hlen (15 - b) b (by omega) h1
  have h2 : (specNext lengths b + countLen lengths b) * 2 ^ (15 - b)
      ≤ 2 ^ b * 2 ^ (15 - b) := by
    calc (specNext lengths b + countLen lengths b) * 2 ^ (15 - b)
        ≤ kraftSum lengths := hu
      _ ≤ 2 ^ 15 := hkraft
      _ = 2 ^ b * 2 ^ (15 - b) := by rw [← pow_add]; congr 1; omega
  exact Nat.le_of_mul_le_mul_right h2 (Nat.pos_pow_of_pos _ (by omega))

/-- The (unwrapped) canonical code value of an assigned symbol. -/
def codeVal (lengths : List Nat) (s : Nat) : Nat :=
  specNext lengths (lengths.getD s 0) + lenRank lengths s

theorem getD_pos_lt_length (lengths : List Nat) (s : Nat)
    (hpos : 0 < lengths.getD s 0) : s < lengths.length := by
  by_contra hc
  rw [List.getD_eq_getElem?_getD, List.getElem?_eq_none (by omega)] at hpos
  simp at hpos

/-- A symbol's rank within its length is below the total count of that
length. -/
theorem rank_lt_count (lengths : List Nat) (s : Nat)
    (hpos : 0 < lengths.getD s 0) :
    lenRank lengths s < countLen lengths (lengths.getD s 0) := by
  have hs : s < lengths.length := getD_pos_lt_length lengths s hpos
  have hL : lengths.getD s 0 = lengths[s] := by
    rw [List.getD_eq_getElem?_getD, List.getElem?_eq_getElem hs]
    rfl
  have hdrop : lengths.drop s = lengths[s] :: lengths.drop (s + 1) :=
    List.drop_eq_getElem_cons hs
  rw [lenRank_eq_countLen lengths s hpos]
  set L := lengths.getD s 0 with hLdef
  conv_rhs => rw [← List.take_append_drop s lengths, hdrop]
  rw [countLen_append _ _ _ hpos, countLen_cons _ _ _ hpos, if_pos hL.symm]
  omega

/-- Counts over prefixes are monotone in the prefix. -/
theorem countLen_take_le (lengths : List Nat) (L : Nat) (hL : 0 < L) :
    ∀ a b, a ≤ b →
      countLen (lengths.take a) L ≤ countLen (lengths.take b) L := by
  intro a b
  induction b with
  | zero => intro hab; have : a = 0 := by omega
            subst this; exact le_refl _
  | succ n ih =>
    intro hab
    rcases Nat.lt_succ_iff_lt_or_eq.mp (Nat.lt_succ_of_le hab) with h | h
    · calc countLen (lengths.take a) L ≤ countLen (lengths.take n) L := ih (by omega)
        _ ≤ countLen (lengths.take (n + 1)) L := by
            rw [countLen_take_succ lengths n L hL]; omega
    · subst h; exact le_refl _

/-- Among two assigned symbols of the same length the earlier one has
the smaller rank. -/
theorem rank_mono (lengths : List Nat) (s t : Nat) (hst : s < t)
    (hpos : 0 < lengths.getD s 0) (heq : lengths.getD s 0 = lengths.getD t 0) :
    lenRank lengths s < lenRank lengths t := by
  have hposT : 0 < lengths.getD t 0 := by omega
  rw [lenRank_eq_countLen lengths s hpos, lenRank_eq_countLen lengths t hposT]
  rw [← heq]
  have h1 : countLen (lengths.take (s + 1)) (lengths.getD s 0)
      = countLen (lengths.take s) (lengths.getD s 0) + 1 := by
    rw [countLen_take_succ lengths s _ hpos, if_pos rfl]
  have h2 := countLen_take_le lengths (lengths.getD s 0) hpos (s + 1) t (by omega)
  omega

/-- Under the Kraft inequality an assigned symbol's code value fits in
its own length's bits. -/
theorem codeVal_lt (lengths : List Nat) (hlen : ∀ L ∈ lengths, L ≤ 15)
    (hkraft : kraftSum lengths ≤ 2 ^ 15) (s : Nat)
    (hpos : 0 < lengths.getD s 0) :
    codeVal lengths s < 2 ^ lengths.getD s 0 := by
  have hs : s < lengths.length := getD_pos_lt_length lengths s hpos
  have hle15 : lengths.getD s 0 ≤ 15 := by
    apply hlen
    rw [List.getD_eq_getElem?_getD, List.getElem?_eq_getElem hs]
    exact List.getElem_mem hs
  have hrk := rank_lt_count lengths s hpos
  have hkb := kraft_bound lengths hlen hkraft (lengths.getD s 0) (by omega) hle15
  unfold codeVal
  omega

/-- With Kraft satisfied, the `u16` reduction in the assignment loop is
the identity: each assigned symbol holds exactly its canonical code. -/
theorem codes_get_eq (lengths : List Nat) (hlen : ∀ L ∈ lengths, L ≤ 15)
    (hkraft : kraftSum lengths ≤ 2 ^ 15) (s : Nat) (hs : s < 256)
    (hpos : 0 < lengths.getD s 0) :
    (fromLengthsCodes lengths).get s = ⟨codeVal lengths s, lengths.getD s 0⟩ := by
  rw [canonical_code_formula lengths hlen s hs hpos]
  have hs15 : lengths.getD s 0 ≤ 15 := by
    have hsl : s < lengths.length := getD_pos_lt_length lengths s hpos
    apply hlen
    rw [List.getD_eq_getElem?_getD, List.getElem?_eq_getElem hsl]
    exact List.getElem_mem hsl
  have hlt : codeVal lengths s < 2 ^ 16 := by
    have := codeVal_lt lengths hlen hkraft s hpos
    have h2 : (2:Nat) ^ lengths.getD s 0 ≤ 2 ^ 16 :=
      Nat.pow_le_pow_right (by omega) (by omega)
    omega
  unfold codeVal at hlt ⊢
  rw [Nat.mod_eq_of_lt hlt]

/-- The scaled canonical recurrence is monotone in the length. -/
theorem specNext_scaled_mono (lengths : List Nat) :
    ∀ b a, a ≤ b → b ≤ 15 →
      specNext lengths a * 2 ^ (16 - a) ≤ specNext lengths b * 2 ^ (16 - b) := by
  intro b
  induction b with
  | zero =>
    intro a hab _
    have : a = 0 := by omega
    subst this; exact le_refl _
  | succ n ih =>
    intro a hab hb15
    rcases Nat.lt_succ_iff_lt_or_eq.mp (Nat.lt_succ_of_le hab) with h | h
    · calc specNext lengths a * 2 ^ (16 - a)
          ≤ specNext lengths n * 2 ^ (16 - n) := ih a (by omega) (by omega)
        _ ≤ specNext lengths (n + 1) * 2 ^ (16 - (n + 1)) := by
            rw [specNext]
            have hp : 2 ^ (16 - n) = 2 * 2 ^ (16 - (n + 1)) := by
              rw [← pow_succ']
              congr 1
              omega
            calc specNext lengths n * 2 ^ (16 - n)
                = specNext lengths n * 2 * 2 ^ (16 - (n + 1)) := by rw [hp]; ring
              _ ≤ (specNext lengths n + countLen lengths n) * 2 * 2 ^ (16 - (n + 1)) :=
                  Nat.mul_le_mul_right _ (Nat.mul_le_mul_right _ (by omega))
    · subst h; exact le_refl _

/-- The full left-aligned range of an assigned symbol lies inside the
table. -/
theorem interval_ub (lengths : List Nat) (hlen : ∀ L ∈ lengths, L ≤ 15)
    (hkraft : kraftSum lengths ≤ 2 ^ 15) (s : Nat)
    (hpos : 0 < lengths.getD s 0) :
    (codeVal lengths s + 1) * 2 ^ (16 - lengths.getD s 0) ≤ 2 ^ 16 := by
  have h1 : codeVal lengths s + 1 ≤ 2 ^ lengths.getD s 0 :=
    codeVal_lt lengths hlen hkraft s hpos
  have hs15 : lengths.getD s 0 ≤ 15 := by
    have hsl : s < lengths.length := getD_pos_lt_length lengths s hpos
    apply hlen
    rw [List.getD_eq_getElem?_getD, List.getElem?_eq_getElem hsl]
    exact List.getElem_mem hsl
  calc (codeVal lengths s + 1) * 2 ^ (16 - lengths.getD s 0)
      ≤ 2 ^ lengths.getD s 0 * 2 ^ (16 - lengths.getD s 0) :=
        Nat.mul_le_mul_right _ h1
    _ = 2 ^ 16 := by rw [← pow_add]; congr 1; omega

/-- Left-aligned ranges of distinct assigned symbols are disjoint.
For symbols of equal length the code values differ; for different
lengths the shorter symbol's whole length class ends before the longer
symbol's class begins. -/
theorem intervals_disjoint (lengths : List Nat)
    (hlen : ∀ L ∈ lengths, L ≤ 15)
    (s t : Nat) (hne : s ≠ t) (hposS : 0 < lengths.getD s 0)
    (hposT : 0 < lengths.getD t 0) (j : Nat)
    (hjs : codeVal lengths s * 2 ^ (16 - lengths.getD s 0) ≤ j ∧
      j < (codeVal lengths s + 1) * 2 ^ (16 - lengths.getD s 0)) :
    ¬(codeVal lengths t * 2 ^ (16 - lengths.getD t 0) ≤ j ∧
      j < (codeVal lengths t + 1) * 2 ^ (16 - lengths.getD t 0)) := by
  intro hjt
  have hS15 : lengths.getD s 0 ≤ 15 := by
    have hsl : s < lengths.length := getD_pos_lt_length lengths s hposS
    apply hlen
    rw [List.getD_eq_getElem?_getD, List.getElem?_eq_getElem hsl]
    exact List.getElem_mem hsl
  have hT15 : lengths.getD t 0 ≤ 15 := by
    have htl : t < lengths.length := getD_pos_lt_length lengths t hposT
    apply hlen
    rw [List.getD_eq_getElem?_getD, List.getElem?_eq_getElem htl]
    exact List.getElem_mem htl
  -- the "class end before class start" argument, for L_a < L_b
  have hlenclass : ∀ a b : Nat, 0 < lengths.getD a 0 → 0 < lengths.getD b 0 →
      lengths.getD a 0 < lengths.getD b 0 →
      (codeVal lengths a + 1) * 2 ^ (16 - lengths.getD a 0)
        ≤ codeVal lengths b * 2 ^ (16 - lengths.getD b 0) := by
    intro a b hpa hpb hab
    have hb15 : lengths.getD b 0 ≤ 15 := by
      have hbl : b < lengths.length := getD_pos_lt_length lengths b hpb
      apply hlen
      rw [List.getD_eq_getElem?_getD, List.getElem?_eq_getElem hbl]
      exact List.getElem_mem hbl
    have h1 : codeVal lengths a + 1
        ≤ specNext lengths (lengths.getD a 0) + countLen lengths (lengths.getD a 0) := by
      have := rank_lt_count lengths a hpa
      unfold codeVal
      omega
    have h2 : (specNext lengths (lengths.getD a 0) + countLen lengths (lengths.getD a 0))
        * 2 ^ (16 - lengths.getD a 0)
        = specNext lengths (lengths.getD a 0 + 1) * 2 ^ (16 - (lengths.getD a 0 + 1)) := by
      rw [specNext]
      have hp : 2 ^ (16 - lengths.getD a 0) = 2 * 2 ^ (16 - (lengths.getD a 0 + 1)) := by
        rw [← pow_succ']
        congr 1
        omega
      rw [hp]
      ring
    have h3 : specNext lengths (lengths.getD a 0 + 1) * 2 ^ (16 - (lengths.getD a 0 + 1))
        ≤ specNext lengths (lengths.getD b 0) * 2 ^ (16 - lengths.getD b 0) :=
      specNext_scaled_mono lengths (lengths.getD b 0) (lengths.getD a 0 + 1)
        (by omega) hb15
    have h4 : specNext lengths (lengths.getD b 0) ≤ codeVal lengths b := by
      unfold codeVal
      omega
    calc (codeVal lengths a + 1) * 2 ^ (16 - lengths.getD a 0)
        ≤ (specNext lengths (lengths.getD a 0) + countLen lengths (lengths.getD a 0))
            * 2 ^ (16 - lengths.getD a 0) := Nat.mul_le_mul_right _ h1
      _ = specNext lengths (lengths.getD a 0 + 1) * 2 ^ (16 - (lengths.getD a 0 + 1)) := h2
      _ ≤ specNext lengths (lengths.getD b 0) * 2 ^ (16 - lengths.getD b 0) := h3
      _ ≤ codeVal lengths b * 2 ^ (16 - lengths.getD b 0) :=
          Nat.mul_le_mul_right _ h4
  rcases Nat.lt_trichotomy (lengths.getD s 0) (lengths.getD t 0) with hLL | hLL | hLL
  · have := hlenclass s t hposS hposT hLL
    omega
  · -- equal lengths: distinct code values give disjoint equal-width blocks
    have hcv : codeVal lengths s ≠ codeVal lengths t := by
      rcases Nat.lt_or_ge s t with hst | hst
      · have := rank_mono lengths s t hst hposS hLL
        unfold codeVal
        rw [hLL]
        omega
      · have hts : t < s := by omega
        have := rank_mono lengths t s hts hposT hLL.symm
        unfold codeVal
        rw [hLL]
        omega
    rw [hLL] at hjs
    rcases Nat.lt_or_ge (codeVal lengths s) (codeVal lengths t) with hlt | hge
    · have : (codeVal lengths s + 1) * 2 ^ (16 - lengths.getD t 0)
          ≤ codeVal lengths t * 2 ^ (16 - lengths.getD t 0) :=
        Nat.mul_le_mul_right _ (by omega)
      omega
    · have hgt : codeVal lengths t < codeVal lengths s := by omega
      have : (codeVal lengths t + 1) * 2 ^ (16 - lengths.getD t 0)
          ≤ codeVal lengths s * 2 ^ (16 - lengths.getD t 0) :=
        Nat.mul_le_mul_right _ (by omega)
      omega
  · have := hlenclass t s hposT hposS hLL
    omega

/-- One iteration of the table-filling loop of
`build_fast_decode_table`, with the codebook fixed. -/
def tableStep (lengths : List Nat) (t : Arr FastDecodeEntry) (symbol : Nat) :
    Arr FastDecodeEntry :=
  fillSymbol t symbol ((fromLengthsCodes lengths).get symbol)

theorem build_table_eq_fold (lengths : List Nat) :
    build_fast_decode_table (fromLengthsCodes lengths)
      = (List.range 256).foldl (tableStep lengths) ⟨fun _ => default⟩ := rfl

/-- Unassigned symbols hold the default (zero-length) code. -/
theorem codes_get_unassigned (lengths : List Nat)
    (hlen : ∀ L ∈ lengths, L ≤ 15) (i : Nat)
    (h : ¬(i < 256 ∧ 0 < lengths.getD i 0)) :
    (fromLengthsCodes lengths).get i = default := by
  have hspec := (assignUpTo_spec lengths hlen 256).2 i
  unfold fromLengthsCodes assignCodes
  rw [hspec, if_neg h]

/-- Invariant of the table-filling loop: after inserting symbols
`0..k`, an index inside a processed assigned symbol's left-aligned
range holds that symbol's entry, and an index inside no processed range
holds the default entry. -/
theorem tableUpTo_spec (lengths : List Nat) (hlen : ∀ L ∈ lengths, L ≤ 15)
    (hkraft : kraftSum lengths ≤ 2 ^ 15) :
    ∀ k, k ≤ 256 → ∀ j, j < 2 ^ 16 →
      (∀ s, s < k → 0 < lengths.getD s 0 →
        (codeVal lengths s * 2 ^ (16 - lengths.getD s 0) ≤ j ∧
          j < (codeVal lengths s + 1) * 2 ^ (16 - lengths.getD s 0)) →
        ((List.range k).foldl (tableStep lengths) ⟨fun _ => default⟩).get j
          = ⟨s, lengths.getD s 0⟩) ∧
      ((∀ s, s < k → 0 < lengths.getD s 0 →
        ¬(codeVal lengths s * 2 ^ (16 - lengths.getD s 0) ≤ j ∧
          j < (codeVal lengths s + 1) * 2 ^ (16 - lengths.getD s 0))) →
        ((List.range k).foldl (tableStep lengths) ⟨fun _ => default⟩).get j
          = ⟨0, 0⟩) := by
  intro k
  induction k with
  | zero =>
    intro _ j _
    exact ⟨fun s hs => absurd hs (by omega), fun _ => rfl⟩
  | succ n ih =>
    intro hk j hj
    have hunf : (List.range (n + 1)).foldl (tableStep lengths) ⟨fun _ => default⟩
        = tableStep lengths
            ((List.range n).foldl (tableStep lengths) ⟨fun _ => default⟩) n := by
      rw [List.range_succ, List.foldl_append]
      rfl
    have hihn := ih (by omega) j hj
    by_cases hpk : 0 < lengths.getD n 0
    · have hLn15 : lengths.getD n 0 ≤ 15 := by
        have hnl : n < lengths.length := getD_pos_lt_length lengths n hpk
        apply hlen
        rw [List.getD_eq_getElem?_getD, List.getElem?_eq_getElem hnl]
        exact List.getElem_mem hnl
      have hcode : (fromLengthsCodes lengths).get n
          = ⟨codeVal lengths n, lengths.getD n 0⟩ :=
        codes_get_eq lengths hlen hkraft n (by omega) hpk
      have hcond : 0 < (HuffCode.mk (codeVal lengths n) (lengths.getD n 0)).len ∧
          (HuffCode.mk (codeVal lengths n) (lengths.getD n 0)).len ≤ FAST_DECODE_BITS := by
        refine ⟨hpk, ?_⟩
        show lengths.getD n 0 ≤ FAST_DECODE_BITS
        unfold FAST_DECODE_BITS
        omega
      have hfill : (tableStep lengths
          ((List.range n).foldl (tableStep lengths) ⟨fun _ => default⟩) n).get j
          = if codeVal lengths n * 2 ^ (16 - lengths.getD n 0) ≤ j ∧
              j < codeVal lengths n * 2 ^ (16 - lengths.getD n 0)
                  + 2 ^ (16 - lengths.getD n 0) ∧ j < 2 ^ 16 then
              ⟨n, lengths.getD n 0⟩
            else ((List.range n).foldl (tableStep lengths) ⟨fun _ => default⟩).get j := by
        unfold tableStep
        rw [hcode]
        unfold fillSymbol
        rw [if_pos hcond]
        rfl
      have hw : (codeVal lengths n + 1) * 2 ^ (16 - lengths.getD n 0)
          = codeVal lengths n * 2 ^ (16 - lengths.getD n 0)
            + 2 ^ (16 - lengths.getD n 0) := by ring
      constructor
      · intro s hs hposS hjs
        rw [hunf, hfill]
        by_cases hsn : s = n
        · subst hsn
          rw [if_pos ⟨hjs.1, by have h2 := hjs.2; omega, by omega⟩]
        · have hdisj := intervals_disjoint lengths hlen s n hsn hposS hpk j hjs
          rw [if_neg (by intro hc; exact hdisj ⟨hc.1, by have h21 := hc.2.1; omega⟩)]
          exact hihn.1 s (by omega) hposS hjs
      · intro hnone
        rw [hunf, hfill]
        have hnn := hnone n (by omega) hpk
        rw [if_neg (by intro hc; exact hnn ⟨hc.1, by have h21 := hc.2.1; omega⟩)]
        exact hihn.2 (fun s hs hposS => hnone s (by omega) hposS)
    · have hcode : (fromLengthsCodes lengths).get n = default :=
        codes_get_unassigned lengths hlen n (by intro hc; exact hpk hc.2)
      have hfill : tableStep lengths
          ((List.range n).foldl (tableStep lengths) ⟨fun _ => default⟩) n
          = (List.range n).foldl (tableStep lengths) ⟨fun _ => default⟩ := by
        unfold tableStep
        rw [hcode]
        unfold fillSymbol
        rw [if_neg (by intro hc; exact absurd hc.1 (by decide))]
      constructor
      · intro s hs hposS hjs
        rw [hunf, hfill]
        have hsn : s ≠ n := by intro h; subst h; exact hpk hposS
        exact hihn.1 s (by omega) hposS hjs
      · intro hnone
        rw [hunf, hfill]
        exact hihn.2 (fun s hs hposS => hnone s (by omega) hposS)

/-- C8 (amended: restricted to codebooks whose lengths satisfy the
Kraft inequality at maximum length 15, as required for a sound table —
the counterexample shows the property fails for accepted but
Kraft-violating lengths): in the table built by
`build_fast_decode_table`, an index holds the entry
`(s, code_length[s])` of an assigned symbol `s` exactly when the
symbol's canonical code is a left-aligned prefix of the index, i.e. for
exactly the `2^(16 - L)` contiguous indices
`[code·2^(16-L), (code+1)·2^(16-L))`. -/
theorem C8_fast_table_ranges (lengths : List Nat)
    (hlen : ∀ L ∈ lengths, L ≤ 15) (hkraft : kraftSum lengths ≤ 2 ^ 15)
    (s : Nat) (hs : s < 256) (hpos : 0 < lengths.getD s 0)
    (j : Nat) (hj : j < 2 ^ 16) :
    (build_fast_decode_table (fromLengthsCodes lengths)).get j
        = ⟨s, lengths.getD s 0⟩ ↔
      (((fromLengthsCodes lengths).get s).code * 2 ^ (16 - lengths.getD s 0) ≤ j ∧
        j < (((fromLengthsCodes lengths).get s).code + 1) * 2 ^ (16 - lengths.getD s 0)) := by
  rw [build_table_eq_fold]
  rw [codes_get_eq lengths hlen hkraft s hs hpos]
  show _ ↔ codeVal lengths s * 2 ^ (16 - lengths.getD s 0) ≤ j ∧
      j < (codeVal lengths s + 1) * 2 ^ (16 - lengths.getD s 0)
  have hspec := tableUpTo_spec lengths hlen hkraft 256 (le_refl _) j hj
  constructor
  · intro hget
    by_contra hnot
    by_cases hex : ∃ t, t < 256 ∧ 0 < lengths.getD t 0 ∧
        (codeVal lengths t * 2 ^ (16 - lengths.getD t 0) ≤ j ∧
          j < (codeVal lengths t + 1) * 2 ^ (16 - lengths.getD t 0))
    · obtain ⟨t, ht256, htpos, htj⟩ := hex
      have hgt := hspec.1 t ht256 htpos htj
      rw [hget] at hgt
      have hts : s = t := congrArg FastDecodeEntry.symbol hgt
      subst hts
      exact hnot htj
    · have hg0 := hspec.2 (fun t ht htpos htj => hex ⟨t, ht, htpos, htj⟩)
      rw [hget] at hg0
      have hL0 : lengths.getD s 0 = 0 := congrArg FastDecodeEntry.len hg0
      omega
  · intro hjs
    exact hspec.1 s hs hpos hjs

/-- Witness for C8: the Kraft-complete lengths `[1, 1]` (padded), symbol
0, index 12345 (inside symbol 0's range `[0, 32768)`). -/
theorem C8_fast_table_ranges_witness :
    (build_fast_decode_table (fromLengthsCodes ([1, 1] ++ List.replicate 254 0))).get 12345
        = ⟨0, ([1, 1] ++ List.replicate 254 0).getD 0 0⟩ ↔
      (((fromLengthsCodes ([1, 1] ++ List.replicate 254 0)).get 0).code
          * 2 ^ (16 - ([1, 1] ++ List.replicate 254 0).getD 0 0) ≤ 12345 ∧
        12345 < (((fromLengthsCodes ([1, 1] ++ List.replicate 254 0)).get 0).code + 1)
          * 2 ^ (16 - ([1, 1] ++ List.replicate 254 0).getD 0 0)) :=
  C8_fast_table_ranges ([1, 1] ++ List.replicate 254 0) (by decide) (by decide)
    0 (by decide) (by decide) 12345 (by decide)

/-! ### Claim C1 : stream round-trip

The round-trip fails when a block uses all 256 byte values and Huffman
wins the size comparison: `write_lengths` then serializes the symbol
count `non_zero.len() as u8 = 256 as u8 = 0`, the decoder parses an
empty codebook and its fast path makes no progress, so the source
decode loop spins forever.  (On the concrete input
`700 × byte 0 ++ bytes 1..255`, evaluation of this embedding shows
`|huff_encode| = 888 < 955`, so `encode_parallel` emits exactly such a
block.)  The theorems below establish the two halves generically: the
count byte of any fully-occupied codebook is 0, and `huff_decode` of
any such serialized codebook diverges. -/

/-- The pair-writing loop of `write_lengths` emits two bytes per
symbol. -/
theorem write_pairs_length (codes : Arr HuffCode) :
    ∀ (l : List Nat) (acc : List Nat),
      (l.foldl (fun out s => out ++ [s % 256, (codes.get s).len]) acc).length
        = acc.length + 2 * l.length := by
  intro l
  induction l with
  | nil => intro acc; simp
  | cons x xs ih =>
    intro acc
    simp only [List.foldl_cons]
    rw [ih]
    simp
    omega

/-- With every symbol assigned, `write_lengths` wraps the count byte to
0 and emits 512 pair bytes. -/
theorem write_lengths_full (codes : Arr HuffCode)
    (hall : ∀ s, s < 256 → 0 < (codes.get s).len) :
    ∃ pairs : List Nat, write_lengths codes = 0 :: pairs ∧ pairs.length = 512 := by
  have hfilter : (List.range 256).filter (fun s => 0 < (codes.get s).len)
      = List.range 256 := by
    apply List.filter_eq_self.mpr
    intro a ha
    have := hall a (List.mem_range.mp ha)
    simpa using this
  refine ⟨((List.range 256).filter (fun s => 0 < (codes.get s).len)).foldl
      (fun out s => out ++ [s % 256, (codes.get s).len]) [], ?_, ?_⟩
  · unfold write_lengths
    rw [hfilter]
    rfl
  · rw [hfilter, write_pairs_length]
    simp

/-- The all-zero length vector parsed from a zero count byte. -/
def zeroLengths : List Nat := List.replicate 256 0

theorem zeroLengths_getD (i : Nat) : zeroLengths.getD i 0 = 0 := by
  by_cases h : i < 256
  · have hlen2 : i < zeroLengths.length := by
      rw [show zeroLengths.length = 256 from rfl]
      omega
    rw [List.getD_eq_getElem?_getD, List.getElem?_eq_getElem hlen2]
    simp only [Option.getD_some, zeroLengths, List.getElem_replicate]
  · rw [List.getD_eq_getElem?_getD, List.getElem?_eq_none (by simpa [zeroLengths] using h)]
    rfl

/-- All codes of the empty codebook are the zero-length default. -/
theorem zero_codes (i : Nat) : (fromLengthsCodes zeroLengths).get i = default := by
  apply codes_get_unassigned
  · intro L hL
    have : L = 0 := by
      simp [zeroLengths] at hL
      exact hL
    omega
  · intro hc
    rw [zeroLengths_getD] at hc
    exact absurd hc.2 (by omega)

/-- The fast table of the empty codebook is entirely unfilled. -/
theorem zero_table (idx : Nat) :
    (build_fast_decode_table (fromLengthsCodes zeroLengths)).get idx = ⟨0, 0⟩ := by
  rw [build_table_eq_fold]
  have hfold : ∀ (l : List Nat) (t : Arr FastDecodeEntry),
      (∀ i, i ∈ l → i < 256) →
      l.foldl (tableStep zeroLengths) t = t := by
    intro l
    induction l with
    | nil => intro t _; rfl
    | cons x xs ih =>
      intro t hmem
      simp only [List.foldl_cons]
      have hstep : tableStep zeroLengths t x = t := by
        unfold tableStep
        rw [zero_codes x]
        unfold fillSymbol
        rw [if_neg (by intro hc; exact absurd hc.1 (by decide))]
      rw [hstep]
      exact ih t (fun i hi => hmem i (by simp [hi]))
  rw [hfold (List.range 256) _ (fun i hi => List.mem_range.mp hi)]
  rfl

/-- The slow decoder never finds a symbol in the empty codebook. -/
theorem findSym_zero (len code : Nat) (hlen : 1 ≤ len) :
    findSym (fromLengthsCodes zeroLengths) len code = none := by
  unfold findSym
  apply List.find?_eq_none.mpr
  intro s _
  rw [zero_codes s]
  simp only [Bool.and_eq_true, decide_eq_true_eq, not_and]
  intro hc
  have h0 : (0 : Nat) = len := hc
  omega

theorem decode_slow_zero (buffer : List Nat) :
    ∀ (fuel : Nat) (br : BitReader) (code len : Nat),
      decode_slow (fromLengthsCodes zeroLengths) buffer fuel br code len = none := by
  intro fuel
  induction fuel with
  | zero => intro br code len; rfl
  | succ n ih =>
    intro br code len
    unfold decode_slow
    cases hbr : brRead buffer br 1 with
    | none => rfl
    | some p =>
      simp only
      rw [findSym_zero _ _ (by omega)]
      exact ih p.2 _ _

/-- The empty codebook parsed by `read_lengths` from a zero count
byte. -/
def zeroCC : CanonicalCode :=
  ⟨fromLengthsCodes zeroLengths, build_fast_decode_table (fromLengthsCodes zeroLengths)⟩

/-- The fast path of the decode loop makes no progress under the empty
codebook. -/
theorem innerOnce_zero (bitBuf : List Nat) (st : DecState) :
    innerOnce zeroCC bitBuf st = none := by
  simp only [innerOnce]
  rw [show zeroCC.fast_decode_table = build_fast_decode_table (fromLengthsCodes zeroLengths)
        from rfl,
      show zeroCC.codes = fromLengthsCodes zeroLengths from rfl]
  rw [zero_table, if_pos rfl, decode_slow_zero]

theorem innerTwo_zero (bitBuf : List Nat) (st : DecState) (expect : Nat) :
    innerTwo zeroCC bitBuf st expect = st := by
  unfold innerTwo
  rw [innerOnce_zero]

/-- Divergence: under the empty codebook, with at least 16 bits of
input and at least one expected symbol, the decode loop never
terminates — no amount of fuel returns a result, mirroring the source's
`while` loop repeating an unchanged state forever. -/
theorem decodeLoop_zero_diverges (bitBuf : List Nat) (expect : Nat)
    (hbits : 2 ≤ bitBuf.length) (hexp : 1 ≤ expect) :
    ∀ fuel, decodeLoop zeroCC bitBuf expect fuel ⟨0, 0, 0, []⟩ = none := by
  intro fuel
  induction fuel with
  | zero => rfl
  | succ n ih =>
    have h1 : ¬(expect ≤ (0 : Nat)) := by omega
    have h2 : ¬(bitBuf.length * 8 ≤ 0 * 8 + 0) := by omega
    have h3 : ¬(bitBuf.length * 8 - (0 * 8 + 0) < FAST_DECODE_BITS) := by
      unfold FAST_DECODE_BITS
      omega
    simp only [decodeLoop]
    rw [if_neg h1, if_neg h2, if_neg h3, innerTwo_zero]
    exact ih

/-- C1 (the mechanism of the round-trip failure, generically): whenever
a block's Huffman codebook assigns a code to every one of the 256 byte
values — which `encode_parallel` produces for inputs such as
`700 × byte 0 ++ bytes 1..255`, where the Huffman payload (888 bytes)
beats the 955-byte input — the serialized codebook's count byte is
`256 as u8 = 0`, and decoding the resulting Huffman payload parses an
empty codebook and then loops forever without producing output, for any
declared original length `n ≥ 1` and any bitstream: the decoder never
returns the original block, so `decode_parallel ∘ encode_parallel` is
not the identity on such inputs. -/
theorem C1_count_wrap_decode_diverges (codes : Arr HuffCode) (bits : List Nat)
    (n : Nat) (hall : ∀ s, s < 256 → 0 < (codes.get s).len) (hn : 1 ≤ n) :
    (write_lengths codes).headD 9 = 0 ∧
    huff_decode (write_lengths codes ++ bits) (some n)
      = .error "decode loop makes no progress" := by
  obtain ⟨pairs, hwl, hplen⟩ := write_lengths_full codes hall
  constructor
  · rw [hwl]; rfl
  · rw [hwl]
    have hread : read_lengths (0 :: (pairs ++ bits)) = .ok (zeroCC, 1) := rfl
    have hd : huff_decode (0 :: (pairs ++ bits)) (some n)
        = (match decodeLoop zeroCC (pairs ++ bits) n (n + 2) ⟨0, 0, 0, []⟩ with
           | some out => (.ok out : Except String (List Nat))
           | none => .error "decode loop makes no progress") := by
      unfold huff_decode
      rw [if_neg (by simp)]
      rw [hread]
      rfl
    rw [List.cons_append, hd,
      decodeLoop_zero_diverges (pairs ++ bits) n (by simp; omega) hn]

/-- Witness for C1: the concrete full codebook assigning every byte
value length 8, an empty bitstream, and `n = 955`. -/
theorem C1_count_wrap_decode_diverges_witness :
    (write_lengths (fromLengthsCodes (List.replicate 256 8))).headD 9 = 0 ∧
    huff_decode (write_lengths (fromLengthsCodes (List.replicate 256 8)) ++ []) (some 955)
      = .error "decode loop makes no progress" :=
  C1_count_wrap_decode_diverges (fromLengthsCodes (List.replicate 256 8)) [] 955
    (by decide) (by decide)

end BstSeal
